import Mathlib

/-!
# Verification of the NORM transmission-block state engine (`src/common/normSegment.cpp`)

This file gives a shallow embedding of the segment pool, per-block
pending/repair bookkeeping, NACK synthesis and the block buffer implemented in
`normSegment.cpp`, and proves (or refutes) the specification claims about them.

Modelling conventions:
* machine integers (`UINT16`, `UINT32`, `unsigned long`) are embedded as `ℕ`;
  where the C++ arithmetic can wrap, the embedding mirrors the wrapped value
  for the argument ranges the theorems use, and this is noted locally;
* the per-block bitmasks are embedded as `Finset ℕ` (bit `k` set ⟺ `k` is a
  member); the bitmask operations of the bitmask header are mirrored by the
  corresponding `Finset` operations;
* segment payload buffers are opaque to all claims under study, so the
  `segment_table` contents are not modelled; block identity is modelled by the
  bare block id (`ℕ`), since every buffer operation depends on a block only
  through `GetId()`.
-/

/-! ## NormSegmentPool (`normSegment.cpp:5-92`) -/

/-- State of `NormSegmentPool`.  The LIFO free list itself is abstracted to
its length `seg_count`: all claims under study depend only on the counters
and the overrun flag.  `seg_size` is omitted (opaque payload). -/
structure NormSegmentPool where
  seg_count : ℕ
  seg_total : ℕ
  peak_usage : ℕ
  overruns : ℕ
  overrun_flag : Bool
deriving DecidableEq, Repr

/-- `NormSegmentPool::Get` (`normSegment.cpp:69-92`).  The returned `Bool`
stands for the returned pointer (`true` = a segment, `false` = `NULL`). -/
def NormSegmentPool.Get (p : NormSegmentPool) : Bool × NormSegmentPool :=
  if 0 < p.seg_count then
    let count := p.seg_count - 1
    let usage := p.seg_total - count
    (true, { p with seg_count := count, overrun_flag := false,
                    peak_usage := if p.peak_usage < usage then usage else p.peak_usage })
  else
    if p.overrun_flag then (false, p)
    else (false, { p with overruns := p.overruns + 1, overrun_flag := true })

/-- Modelled from the spec: `NormSegmentPool::Put` is defined in the class
header, which is not part of `src/`; per §4.1 it only pushes the segment back
onto the free list (so `seg_count` grows and no other field is touched). -/
def NormSegmentPool.Put (p : NormSegmentPool) : NormSegmentPool :=
  { p with seg_count := p.seg_count + 1 }

/-! ## NormBlock state and bitmask operations (`normSegment.cpp:98-134`) -/

/-- Per-block state.  `blkSize` is the total symbol count `size`;
the two masks are sets of set bit positions. -/
structure NormBlock where
  blkSize : ℕ
  pending_mask : Finset ℕ
  repair_mask : Finset ℕ
  erasure_count : ℕ
  parity_count : ℕ
  parity_offset : ℕ
  in_repair : Bool
deriving DecidableEq

/-- Bitmask `SetBits(start, count)`: set the `count` bits from `start`. -/
def setBits (m : Finset ℕ) (start count : ℕ) : Finset ℕ :=
  m ∪ Finset.Ico start (start + count)

/-- Bitmask `UnsetBits(start, count)`: clear the `count` bits from `start`. -/
def unsetBits (m : Finset ℕ) (start count : ℕ) : Finset ℕ :=
  m \ Finset.Ico start (start + count)

/-- Bitmask `GetNextSet(index)` (used as `GetFirstPending` with index 0 and as
`GetNextPending`): the smallest set bit `≥ i`, if any.  Declared in the bitmask
header (not in `src/`); the spec (§4.2.1) fixes it as "first/next set bit ≥ i". -/
def nextSet (m : Finset ℕ) (i : ℕ) : Option ℕ :=
  if h : (m.filter (fun j => i ≤ j)).Nonempty then
    some ((m.filter (fun j => i ≤ j)).min' h)
  else none

/-! ## NormBlock::TxReset (`normSegment.cpp:214-253`) -/

/-- `NormBlock::TxReset`.  `parityReady` stands for the value of the header
predicate `ParityReady(numData)` (declared outside `src/`); it only gates the
parity-buffer zeroing (buffers are not modelled) and the `erasure_count`
reset.  The returned `Bool` is `increasedRepair`. -/
def NormBlock.TxReset (b : NormBlock) (numData numParity autoParity : ℕ)
    (parityReady : Bool) : Bool × NormBlock :=
  let r1 := setBits b.repair_mask 0 (numData + autoParity)
  let r2 := unsetBits r1 (numData + autoParity) (numParity - autoParity)
  let r3 := symmDiff r2 b.pending_mask
  if r3.Nonempty then
    let p1 := setBits b.pending_mask 0 (numData + autoParity)
    let p2 := unsetBits p1 (numData + autoParity) (numParity - autoParity)
    (true, { b with repair_mask := ∅, pending_mask := p2,
                    parity_offset := autoParity, parity_count := numParity,
                    in_repair := true,
                    erasure_count := if parityReady then b.erasure_count else 0 })
  else
    (false, { b with repair_mask := r3 })

/-- `NormBlock::ActivateRepairs` (`normSegment.cpp:255-267`). -/
def NormBlock.ActivateRepairs (b : NormBlock) : Bool × NormBlock :=
  if b.repair_mask.Nonempty then
    (true, { b with pending_mask := b.pending_mask ∪ b.repair_mask, repair_mask := ∅ })
  else (false, b)

/-! ## Claim C7: segment pool overrun episodes -/

/-- C7: for every `SegmentPool` state (hence along every `Get`/`Put` trace):
a `Get` on an empty pool returns none and increments `overruns` exactly once
per exhaustion episode — the first failing `Get` of an episode increments
`overruns` and sets `overrun_flag`; a further failing `Get` changes nothing;
a successful `Get` clears `overrun_flag` (and leaves `overruns` alone), so a
later failing `Get` starts a new episode; `Put` touches neither field. -/
theorem c7_segmentPool_overrun_episodes (p : NormSegmentPool) :
    (p.seg_count = 0 → (p.Get).1 = false) ∧
    (p.seg_count = 0 → p.overrun_flag = false →
      (p.Get).2.overruns = p.overruns + 1 ∧ (p.Get).2.overrun_flag = true) ∧
    (p.seg_count = 0 → p.overrun_flag = true → p.Get = (false, p)) ∧
    (0 < p.seg_count →
      (p.Get).1 = true ∧ (p.Get).2.overrun_flag = false ∧
      (p.Get).2.overruns = p.overruns) ∧
    ((p.Put).overruns = p.overruns ∧ (p.Put).overrun_flag = p.overrun_flag) := by
  obtain ⟨c, t, pk, o, f⟩ := p
  refine ⟨?_, ?_, ?_, ?_, ?_, ?_⟩ <;>
    simp only [NormSegmentPool.Get, NormSegmentPool.Put] <;>
    rcases c with _ | c <;> rcases f <;> simp

/-- Witness for C7 at the spec scenario's exhaustion point: a pool of two
segments, both handed out, flag clear; the failing `Get` bumps `overruns`
to 1 and raises the flag. -/
theorem c7_segmentPool_overrun_episodes_witness :
    ((⟨0, 2, 2, 0, false⟩ : NormSegmentPool).Get).1 = false ∧
    ((⟨0, 2, 2, 0, false⟩ : NormSegmentPool).Get).2.overruns = 0 + 1 ∧
    ((⟨0, 2, 2, 0, false⟩ : NormSegmentPool).Get).2.overrun_flag = true := by
  have h := c7_segmentPool_overrun_episodes ⟨0, 2, 2, 0, false⟩
  exact ⟨h.1 rfl, (h.2.1 rfl rfl).1, (h.2.1 rfl rfl).2⟩

/-! ## Claim C9: TxReset always leaves `repair_mask` empty -/

/-- C9: for every block and all arguments with `numData + autoParity ≤ size`,
`repair_mask` is empty when `TxReset` returns, on the `true` path (explicit
`Clear`) as well as on the `false` path (the XOR that the return condition
just found empty is what was stored); hence repair bits staged by
`HandleSegmentRequest` and not yet committed by `ActivateRepairs` are
discarded by any `TxReset` call. -/
theorem c9_txReset_clears_repair (b : NormBlock)
    (numData numParity autoParity : ℕ) (parityReady : Bool)
    (hsz : numData + autoParity ≤ b.blkSize) :
    ((b.TxReset numData numParity autoParity parityReady).2).repair_mask = ∅ := by
  unfold NormBlock.TxReset
  by_cases h :
      (symmDiff (unsetBits (setBits b.repair_mask 0 (numData + autoParity))
        (numData + autoParity) (numParity - autoParity)) b.pending_mask).Nonempty
  · simp [h]
  · simp only [h, if_false]
    simpa [Finset.not_nonempty_iff_eq_empty] using h

/-- Witness for C9: a block of size 14 with a staged repair bit; `TxReset`
discards it. -/
theorem c9_txReset_clears_repair_witness :
    10 + 2 ≤ (14 : ℕ) ∧
    (((⟨14, {0, 1}, {13}, 0, 0, 0, false⟩ : NormBlock).TxReset 10 4 2 true).2).repair_mask = ∅ :=
  ⟨by norm_num,
   c9_txReset_clears_repair ⟨14, {0, 1}, {13}, 0, 0, 0, false⟩ 10 4 2 true (by norm_num)⟩

/-! ## Claim C3: TxReset -/

/-- After `SetBits(0, numData+autoParity); UnsetBits(numData+autoParity, numParity-autoParity)`
a mask confined to `[0, numData+numParity)` holds exactly the bits
`[0, numData+autoParity)`. -/
theorem scratch_mask_eq (m : Finset ℕ) (numData numParity autoParity : ℕ)
    (hm : m ⊆ Finset.range (numData + numParity)) (hap : autoParity ≤ numParity) :
    unsetBits (setBits m 0 (numData + autoParity)) (numData + autoParity)
      (numParity - autoParity) = Finset.Ico 0 (numData + autoParity) := by
  ext x
  simp only [unsetBits, setBits, Finset.mem_sdiff, Finset.mem_union, Finset.mem_Ico]
  constructor
  · rintro ⟨hx | hx, hnot⟩
    · have hxr := hm hx
      simp only [Finset.mem_range] at hxr
      omega
    · omega
  · intro hx
    exact ⟨Or.inr (by omega), by omega⟩

/-- C3 counterexample: the claim says `TxReset` "returns false, with nothing
changed, exactly when the desired pending pattern already equals
`pending_mask`"; but on a block whose `repair_mask` still holds a staged bit
(here bit 0) and whose `pending_mask` already equals the desired pattern,
`TxReset(10, 4, 2, ·)` does return false yet clears `repair_mask`, so
something did change. -/
theorem c3_txReset_counterexample :
    ((⟨14, Finset.Ico 0 12, {0}, 0, 0, 0, false⟩ : NormBlock).TxReset 10 4 2 true).1 = false ∧
    ((⟨14, Finset.Ico 0 12, {0}, 0, 0, 0, false⟩ : NormBlock).TxReset 10 4 2 true).2.repair_mask
      ≠ (⟨14, Finset.Ico 0 12, {0}, 0, 0, 0, false⟩ : NormBlock).repair_mask := by
  constructor
  · decide
  · decide


/-- Evaluation of `TxReset` when the desired pattern already equals
`pending_mask`: the XOR is empty, so it returns `false`, leaving the (cleared)
XOR in `repair_mask`. -/
theorem txReset_false_case (b : NormBlock) (numData numParity autoParity : ℕ)
    (parityReady : Bool)
    (hscr : unsetBits (setBits b.repair_mask 0 (numData + autoParity))
      (numData + autoParity) (numParity - autoParity) =
      Finset.Ico 0 (numData + autoParity))
    (hpend : b.pending_mask = Finset.Ico 0 (numData + autoParity)) :
    b.TxReset numData numParity autoParity parityReady =
      (false, { b with repair_mask := ∅ }) := by
  simp only [NormBlock.TxReset, hscr, hpend, symmDiff_self]
  simp

/-- Evaluation of `TxReset` when the desired pattern differs from
`pending_mask`. -/
theorem txReset_true_case (b : NormBlock) (numData numParity autoParity : ℕ)
    (parityReady : Bool)
    (hscrR : unsetBits (setBits b.repair_mask 0 (numData + autoParity))
      (numData + autoParity) (numParity - autoParity) =
      Finset.Ico 0 (numData + autoParity))
    (hscrP : unsetBits (setBits b.pending_mask 0 (numData + autoParity))
      (numData + autoParity) (numParity - autoParity) =
      Finset.Ico 0 (numData + autoParity))
    (hpend : b.pending_mask ≠ Finset.Ico 0 (numData + autoParity)) :
    b.TxReset numData numParity autoParity parityReady =
      (true, { b with repair_mask := ∅,
                      pending_mask := Finset.Ico 0 (numData + autoParity),
                      parity_offset := autoParity, parity_count := numParity,
                      in_repair := true,
                      erasure_count := if parityReady then b.erasure_count else 0 }) := by
  have hne : (symmDiff (Finset.Ico 0 (numData + autoParity)) b.pending_mask).Nonempty := by
    rw [Finset.nonempty_iff_ne_empty]
    intro h0
    rw [← Finset.bot_eq_empty] at h0
    exact hpend (symmDiff_eq_bot.mp h0).symm
  simp only [NormBlock.TxReset, hscrR, hscrP]
  rw [if_pos hne]

/-- C3 (amended): for a block of size `numData + numParity` whose masks live in
`[0, size)` and with `autoParity ≤ numParity`: `TxReset` returns false exactly
when the desired pattern (bits `[0, numData+autoParity)`) already equals
`pending_mask`; on that path `pending_mask` and the parity counters are
unchanged but `repair_mask` is left cleared (not merely unchanged, as the
claim said); when it returns true, `pending_mask` afterwards has exactly bits
`[0, numData+autoParity)`, `parity_offset = autoParity`,
`parity_count = numParity` and `repair_mask` is empty; an immediately repeated
call with identical arguments returns false and leaves the whole state
unchanged. -/
theorem c3_txReset_amended (b : NormBlock) (numData numParity autoParity : ℕ)
    (parityReady : Bool)
    (hsz : b.blkSize = numData + numParity)
    (hp : b.pending_mask ⊆ Finset.range b.blkSize)
    (hr : b.repair_mask ⊆ Finset.range b.blkSize)
    (hap : autoParity ≤ numParity) :
    ((b.TxReset numData numParity autoParity parityReady).1 = false ↔
      b.pending_mask = Finset.Ico 0 (numData + autoParity)) ∧
    ((b.TxReset numData numParity autoParity parityReady).1 = false →
      (b.TxReset numData numParity autoParity parityReady).2 =
        { b with repair_mask := ∅ }) ∧
    ((b.TxReset numData numParity autoParity parityReady).1 = true →
      (b.TxReset numData numParity autoParity parityReady).2.pending_mask =
          Finset.Ico 0 (numData + autoParity) ∧
      (b.TxReset numData numParity autoParity parityReady).2.parity_offset = autoParity ∧
      (b.TxReset numData numParity autoParity parityReady).2.parity_count = numParity ∧
      (b.TxReset numData numParity autoParity parityReady).2.repair_mask = ∅) ∧
    (NormBlock.TxReset ((b.TxReset numData numParity autoParity parityReady).2)
        numData numParity autoParity parityReady =
      (false, (b.TxReset numData numParity autoParity parityReady).2)) := by
  rw [hsz] at hp hr
  have hscrR := scratch_mask_eq b.repair_mask numData numParity autoParity hr hap
  have hscrP := scratch_mask_eq b.pending_mask numData numParity autoParity hp hap
  have hscrE := scratch_mask_eq (∅ : Finset ℕ) numData numParity autoParity
    (Finset.empty_subset _) hap
  by_cases hc : b.pending_mask = Finset.Ico 0 (numData + autoParity)
  · rw [txReset_false_case b numData numParity autoParity parityReady hscrR hc]
    refine ⟨iff_of_true rfl hc, fun _ => rfl, by simp, ?_⟩
    rw [txReset_false_case { b with repair_mask := ∅ } numData numParity autoParity
      parityReady hscrE hc]
  · rw [txReset_true_case b numData numParity autoParity parityReady hscrR hscrP hc]
    refine ⟨iff_of_false (by simp) hc, by simp, fun _ => ⟨rfl, rfl, rfl, rfl⟩, ?_⟩
    rw [txReset_false_case _ numData numParity autoParity parityReady hscrE rfl]

/-- Witness for C3 (amended) on a fresh 14-symbol block: empty pending mask,
so `TxReset(10, 4, 2, ·)` reports an increase. -/
theorem c3_txReset_amended_witness :
    (((⟨14, ∅, ∅, 0, 0, 0, false⟩ : NormBlock).TxReset 10 4 2 true).1 = false ↔
      ((⟨14, ∅, ∅, 0, 0, 0, false⟩ : NormBlock)).pending_mask = Finset.Ico 0 (10 + 2)) ∧
    (((⟨14, ∅, ∅, 0, 0, 0, false⟩ : NormBlock)).TxReset 10 4 2 true).1 = true := by
  have h := c3_txReset_amended ⟨14, ∅, ∅, 0, 0, 0, false⟩ 10 4 2 true rfl
    (by simp) (by simp) (by norm_num)
  refine ⟨h.1, ?_⟩
  by_contra hfalse
  have h1 : ((⟨14, ∅, ∅, 0, 0, 0, false⟩ : NormBlock).TxReset 10 4 2 true).1 = false := by
    revert hfalse
    cases ((⟨14, ∅, ∅, 0, 0, 0, false⟩ : NormBlock).TxReset 10 4 2 true).1 <;> simp
  have h2 := h.1.mp h1
  have : (0 : ℕ) ∈ Finset.Ico 0 (10 + 2) := by decide
  rw [← h2] at this
  simp at this

/-! ## NormBlock::TxUpdate (`normSegment.cpp:272-330`) and
NormBlock::HandleSegmentRequest (`normSegment.cpp:332-391`) -/

/-- The explicit-repair `while (nextId <= lastId)` loop of `TxUpdate`, recast
on the iteration count `lastId + 1 - nextId`: set every not-yet-set bit,
reporting whether any bit was newly set. -/
def maskSetRunTx (mask : Finset ℕ) (nextId : ℕ) : ℕ → Finset ℕ × Bool
  | 0 => (mask, false)
  | count + 1 =>
    let step := if nextId ∈ mask then (mask, false) else (insert nextId mask, true)
    let rest := maskSetRunTx step.1 (nextId + 1) count
    (rest.1, step.2 || rest.2)

/-- The explicit-repair `while (nextId <= lastId)` loop of
`HandleSegmentRequest`, identical in the source text except for the mask it
works on. -/
def maskSetRunReq (mask : Finset ℕ) (nextId : ℕ) : ℕ → Finset ℕ × Bool
  | 0 => (mask, false)
  | count + 1 =>
    let step := if nextId ∈ mask then (mask, false) else (insert nextId mask, true)
    let rest := maskSetRunReq step.1 (nextId + 1) count
    (rest.1, step.2 || rest.2)

/-- `NormBlock::TxUpdate` (`normSegment.cpp:272-330`). -/
def NormBlock.TxUpdate (b : NormBlock) (nextId lastId numData numParity erasureCount : ℕ) :
    Bool × NormBlock :=
  if nextId < numData then
    let r := maskSetRunTx b.pending_mask nextId (lastId + 1 - nextId)
    (r.2, { b with pending_mask := r.1,
                   parity_offset := numParity, parity_count := numParity })
  else
    let parityAvailable := numParity - b.parity_offset
    if erasureCount ≤ parityAvailable then
      if b.parity_count < erasureCount then
        let m := setBits b.pending_mask (numData + b.parity_offset + b.parity_count)
          (erasureCount - b.parity_count)
        (true, { b with pending_mask := m, parity_count := erasureCount })
      else (false, b)
    else
      if b.parity_count < parityAvailable then
        let count := parityAvailable - b.parity_count
        let m1 := setBits b.pending_mask (numData + b.parity_offset + b.parity_count) count
        let next2 := nextId + parityAvailable
        let r := maskSetRunTx m1 next2 (lastId + 1 - next2)
        (true, { b with pending_mask := r.1, parity_count := parityAvailable })
      else
        let r := maskSetRunTx b.pending_mask nextId (lastId + 1 - nextId)
        (r.2, { b with pending_mask := r.1 })

/-- `NormBlock::HandleSegmentRequest` (`normSegment.cpp:332-391`). -/
def NormBlock.HandleSegmentRequest (b : NormBlock)
    (nextId lastId numData numParity erasureCount : ℕ) : Bool × NormBlock :=
  if nextId < numData then
    let r := maskSetRunReq b.repair_mask nextId (lastId + 1 - nextId)
    (r.2, { b with repair_mask := r.1,
                   parity_count := numParity, parity_offset := numParity })
  else
    let parityAvailable := numParity - b.parity_offset
    if erasureCount ≤ parityAvailable then
      if b.parity_count < erasureCount then
        let m := setBits b.repair_mask (numData + b.parity_offset + b.parity_count)
          (erasureCount - b.parity_count)
        (true, { b with repair_mask := m, parity_count := erasureCount })
      else (false, b)
    else
      if b.parity_count < parityAvailable then
        let count := parityAvailable - b.parity_count
        let m1 := setBits b.repair_mask (numData + b.parity_offset + b.parity_count) count
        let next2 := nextId + parityAvailable
        let r := maskSetRunReq m1 next2 (lastId + 1 - next2)
        (true, { b with repair_mask := r.1, parity_count := parityAvailable })
      else
        let r := maskSetRunReq b.repair_mask nextId (lastId + 1 - nextId)
        (r.2, { b with repair_mask := r.1 })

/-- The two textually identical explicit-repair loops compute the same
function. -/
theorem maskSetRunReq_eq_tx (mask : Finset ℕ) (nextId count : ℕ) :
    maskSetRunReq mask nextId count = maskSetRunTx mask nextId count := by
  induction count generalizing mask nextId with
  | zero => rfl
  | succ n ih => simp only [maskSetRunReq, maskSetRunTx, ih]

/-! ## Claim C8: HandleSegmentRequest refines TxUpdate with the masks swapped -/

/-- C8: for all arguments and all starting block states,
`HandleSegmentRequest` returns the same boolean and performs the same
`parity_offset`/`parity_count` updates as `TxUpdate`, and performs exactly the
same bit updates, except applied to `repair_mask` where `TxUpdate` applies
them to `pending_mask` (and `pending_mask` is left untouched). -/
theorem c8_handleSegmentRequest_refines_txUpdate (b : NormBlock)
    (nextId lastId numData numParity erasureCount : ℕ) :
    b.HandleSegmentRequest nextId lastId numData numParity erasureCount =
      (let t := NormBlock.TxUpdate { b with pending_mask := b.repair_mask }
        nextId lastId numData numParity erasureCount
       (t.1, { b with repair_mask := t.2.pending_mask,
                      parity_offset := t.2.parity_offset,
                      parity_count := t.2.parity_count })) := by
  obtain ⟨sz, p, r, e, pc, po, ir⟩ := b
  simp only [NormBlock.HandleSegmentRequest, NormBlock.TxUpdate, maskSetRunReq_eq_tx]
  by_cases h1 : nextId < numData
  · simp [h1]
  · simp only [h1, if_false]
    by_cases h2 : erasureCount ≤ numParity - po
    · by_cases h3 : pc < erasureCount <;> simp [h2, h3]
    · by_cases h4 : pc < numParity - po <;> simp [h2, h4]

/-! ## Claim C5: the parity branch of HandleSegmentRequest -/

/-- The explicit-repair loop sets exactly the bits `[nextId, nextId+count)`. -/
theorem maskSetRunReq_fst (c : ℕ) : ∀ (m : Finset ℕ) (a : ℕ),
    (maskSetRunReq m a c).1 = m ∪ Finset.Ico a (a + c) := by
  induction c with
  | zero => intro m a; simp [maskSetRunReq]
  | succ n ih =>
    intro m a
    by_cases h : a ∈ m
    · simp only [maskSetRunReq, h, if_true, ih]
      ext x
      simp only [Finset.mem_union, Finset.mem_Ico]
      constructor
      · rintro (hx | hx)
        · exact Or.inl hx
        · exact Or.inr ⟨by omega, by omega⟩
      · rintro (hx | hx)
        · exact Or.inl hx
        · rcases Nat.eq_or_lt_of_le hx.1 with rfl | hlt
          · exact Or.inl h
          · exact Or.inr ⟨hlt, by omega⟩
    · simp only [maskSetRunReq, h, if_false, ih]
      ext x
      simp only [Finset.mem_union, Finset.mem_insert, Finset.mem_Ico]
      constructor
      · rintro (⟨rfl | hx⟩ | hx)
        · exact Or.inr ⟨le_refl _, by omega⟩
        · exact Or.inl hx
        · exact Or.inr ⟨by omega, by omega⟩
      · rintro (hx | hx)
        · exact Or.inl (Or.inr hx)
        · rcases Nat.eq_or_lt_of_le hx.1 with rfl | hlt
          · exact Or.inl (Or.inl rfl)
          · exact Or.inr ⟨hlt, by omega⟩

/-- C5 counterexample: the claim describes the `erasureCount > parityAvailable`
case as unconditionally raising `parity_count` and advancing `nextId` by
`parityAvailable` before the explicit marking; but when `parity_count` already
equals `parityAvailable` (here 4, e.g. after an earlier raise whose staged bits
were already committed and cleared by `ActivateRepairs`), the code skips the
advance and marks the full range `[10, 15]` in `repair_mask`, not just the
claim's residual `[14, 15]`. -/
theorem c5_handleSegmentRequest_counterexample :
    ((⟨14, ∅, ∅, 0, 4, 0, false⟩ : NormBlock).HandleSegmentRequest 10 15 10 4 6).2.repair_mask =
      Finset.Icc 10 15 ∧
    ((⟨14, ∅, ∅, 0, 4, 0, false⟩ : NormBlock).HandleSegmentRequest 10 15 10 4 6).2.parity_count
      = 4 ∧
    (Finset.Icc 10 15 : Finset ℕ) ≠ Finset.Icc 14 15 := by
  refine ⟨by decide, by decide, by decide⟩

/-- C5 (amended): for a parity request (`numData ≤ nextId`) with
`erasureCount > parityAvailable = numParity - parity_offset` on a block with
`parity_count < parityAvailable` (in particular a fresh block), the call
raises `parity_count` to `parityAvailable`, sets the repair bits
`[numData+parity_offset+parity_count, numData+parity_offset+parityAvailable)`,
advances `nextId` by `parityAvailable`, then sets every bit of
`[nextId, lastId]`, returning true, with `parity_offset` and `pending_mask`
unchanged.  (When `parity_count ≥ parityAvailable` the raise and the advance
are skipped and the explicit range starts at the original `nextId` — see the
counterexample.) -/
theorem c5_handleSegmentRequest_amended (b : NormBlock)
    (nextId lastId numData numParity erasureCount : ℕ)
    (hdata : numData ≤ nextId)
    (hover : numParity - b.parity_offset < erasureCount)
    (hraise : b.parity_count < numParity - b.parity_offset) :
    (b.HandleSegmentRequest nextId lastId numData numParity erasureCount).1 = true ∧
    (b.HandleSegmentRequest nextId lastId numData numParity erasureCount).2.repair_mask =
      b.repair_mask ∪
        Finset.Ico (numData + b.parity_offset + b.parity_count)
          (numData + b.parity_offset + (numParity - b.parity_offset)) ∪
        Finset.Icc (nextId + (numParity - b.parity_offset)) lastId ∧
    (b.HandleSegmentRequest nextId lastId numData numParity erasureCount).2.parity_count =
      numParity - b.parity_offset ∧
    (b.HandleSegmentRequest nextId lastId numData numParity erasureCount).2.parity_offset =
      b.parity_offset ∧
    (b.HandleSegmentRequest nextId lastId numData numParity erasureCount).2.pending_mask =
      b.pending_mask := by
  have h1 : ¬ nextId < numData := by omega
  have h2 : ¬ erasureCount ≤ numParity - b.parity_offset := by omega
  simp only [NormBlock.HandleSegmentRequest, h1, if_false, h2, hraise, if_true,
    maskSetRunReq_fst, setBits]
  refine ⟨by trivial, ?_, by trivial, by trivial, by trivial⟩
  have hico : Finset.Ico (nextId + (numParity - b.parity_offset))
      (nextId + (numParity - b.parity_offset) +
        (lastId + 1 - (nextId + (numParity - b.parity_offset)))) =
      Finset.Icc (nextId + (numParity - b.parity_offset)) lastId := by
    ext x
    simp only [Finset.mem_Ico, Finset.mem_Icc]
    omega
  have hup : numData + b.parity_offset + b.parity_count +
      (numParity - b.parity_offset - b.parity_count) =
      numData + b.parity_offset + (numParity - b.parity_offset) := by omega
  rw [hico, hup]

/-- Witness for C5 (amended): the spec's scenario 5 — fresh block,
`HandleSegmentRequest(10, 15, 10, 4, 6)` sets repair bits 10..13 then 14..15,
ends with `parity_count = 4`, `parity_offset` unchanged. -/
theorem c5_handleSegmentRequest_amended_witness :
    ((⟨14, ∅, ∅, 0, 0, 0, false⟩ : NormBlock).HandleSegmentRequest 10 15 10 4 6).1 = true ∧
    ((⟨14, ∅, ∅, 0, 0, 0, false⟩ : NormBlock).HandleSegmentRequest 10 15 10 4 6).2.repair_mask
      = Finset.Ico 10 14 ∪ Finset.Icc 14 15 ∧
    ((⟨14, ∅, ∅, 0, 0, 0, false⟩ : NormBlock).HandleSegmentRequest 10 15 10 4 6).2.parity_count
      = 4 ∧
    ((⟨14, ∅, ∅, 0, 0, 0, false⟩ : NormBlock).HandleSegmentRequest 10 15 10 4 6).2.parity_offset
      = 0 := by
  have h := c5_handleSegmentRequest_amended ⟨14, ∅, ∅, 0, 0, 0, false⟩ 10 15 10 4 6
    (by norm_num) (by norm_num) (by norm_num)
  exact ⟨h.1, h.2.1.trans (by decide), h.2.2.1.trans (by decide),
    h.2.2.2.1.trans (by decide)⟩

/-! ## NormBlock::IsRepairPending (`normSegment.cpp:177-211`) -/

/-- The `while (i--)` walk of `IsRepairPending` when `erasure_count > numParity > 0`:
set the first `numParity` pending positions in the repair mask.  On a failed
`GetNextPending` the index is simply left at its incremented value (the call
ignores the returned flag; the bitmask header is not part of `src/`). -/
def setFirstPendingBits (pend : Finset ℕ) : Finset ℕ → ℕ → ℕ → Finset ℕ
  | rep, _, 0 => rep
  | rep, nextId, i + 1 =>
    let rep2 := insert nextId rep
    let n2 := match nextSet pend (nextId + 1) with
      | some j => j
      | none => nextId + 1
    setFirstPendingBits pend rep2 n2 i

/-- `NormBlock::IsRepairPending` (`normSegment.cpp:177-211`).  Returns the
boolean result together with the updated block (the call rewrites
`repair_mask`). -/
def NormBlock.IsRepairPending (b : NormBlock) (numData numParity : ℕ) :
    Bool × NormBlock :=
  let r1 :=
    if numParity < b.erasure_count then
      if numParity ≠ 0 then
        setFirstPendingBits b.pending_mask b.repair_mask
          ((nextSet b.pending_mask 0).getD 0) numParity
      else if numData < b.blkSize then
        setBits b.repair_mask numData (b.blkSize - numData)
      else b.repair_mask
    else
      setBits (setBits b.repair_mask 0 numData) (numData + b.erasure_count)
        (numParity - b.erasure_count)
  let r2 := symmDiff b.pending_mask r1
  (r2.Nonempty, { b with repair_mask := r2 })

/-! ## Claim C1: IsRepairPending against the covered set -/

/-- C1 counterexample: take a receiver block with `numData = 2`,
`numParity = 2`, `erasure_count = 1`, `pending_mask = {0}` and an empty
`repair_mask`.  The covered set of §4.2.6 is `[0,2) ∪ [3,4) = {0,1,3}`, so
`pending_mask` is contained in it, yet `IsRepairPending` returns true — the
XOR it computes tests equality with the covered set, not containment. -/
theorem c1_isRepairPending_counterexample :
    ¬ ((((⟨4, {0}, ∅, 1, 0, 0, false⟩ : NormBlock).IsRepairPending 2 2).1 = false) ↔
        ({0} : Finset ℕ) ⊆ Finset.Ico 0 2 ∪ Finset.Ico 3 4) := by
  decide

/-- C1 (amended): for every block state with `erasure_count ≤ numParity` (the
case for which the claim spells out the covered set), writing
`covered = [0, numData) ∪ [numData+erasure_count, numData+numParity)`:
`IsRepairPending` returns false iff `pending_mask` *equals*
`repair_mask₀ ∪ covered` (not: is contained in `covered`), and afterwards
`repair_mask = pending_mask XOR (repair_mask₀ ∪ covered)`; in particular with
`repair_mask` clear on entry — the scratch convention the claim presumes — it
returns false iff `pending_mask = covered`, and leaves
`repair_mask = pending_mask XOR covered`, the bits still needing explicit
request.  `pending_mask` is untouched. -/
theorem c1_isRepairPending_amended (b : NormBlock) (numData numParity : ℕ)
    (he : b.erasure_count ≤ numParity) :
    ((b.IsRepairPending numData numParity).1 = false ↔
      b.pending_mask = b.repair_mask ∪
        (Finset.Ico 0 numData ∪
          Finset.Ico (numData + b.erasure_count) (numData + numParity))) ∧
    (b.IsRepairPending numData numParity).2.repair_mask =
      symmDiff b.pending_mask
        (b.repair_mask ∪
          (Finset.Ico 0 numData ∪
            Finset.Ico (numData + b.erasure_count) (numData + numParity))) ∧
    (b.IsRepairPending numData numParity).2.pending_mask = b.pending_mask := by
  have hnp : ¬ numParity < b.erasure_count := by omega
  have hcov : setBits (setBits b.repair_mask 0 numData) (numData + b.erasure_count)
      (numParity - b.erasure_count) =
      b.repair_mask ∪
        (Finset.Ico 0 numData ∪
          Finset.Ico (numData + b.erasure_count) (numData + numParity)) := by
    ext x
    simp only [setBits, Finset.mem_union, Finset.mem_Ico]
    constructor
    · rintro ((hx | hx) | hx)
      · exact Or.inl hx
      · exact Or.inr (Or.inl (by omega))
      · exact Or.inr (Or.inr ⟨hx.1, by omega⟩)
    · rintro (hx | (hx | hx))
      · exact Or.inl (Or.inl hx)
      · exact Or.inl (Or.inr (by omega))
      · exact Or.inr ⟨hx.1, by omega⟩
  simp only [NormBlock.IsRepairPending, hnp, if_false, hcov]
  refine ⟨?_, by trivial, by trivial⟩
  rw [decide_eq_false_iff_not, Finset.not_nonempty_iff_eq_empty, ← Finset.bot_eq_empty]
  exact symmDiff_eq_bot

/-- Witness for C1 (amended): `numData = 2`, `numParity = 2`,
`erasure_count = 1`, `pending_mask = {0,1,3}` equals the covered set, so no
NACK is needed. -/
theorem c1_isRepairPending_amended_witness :
    (((⟨4, {0, 1, 3}, ∅, 1, 0, 0, false⟩ : NormBlock).IsRepairPending 2 2).1 = false) := by
  have h := c1_isRepairPending_amended ⟨4, {0, 1, 3}, ∅, 1, 0, 0, false⟩ 2 2 (by norm_num)
  exact h.1.mpr (by decide)

/-! ## NormBlockBuffer (`normSegment.cpp:678-925`)

The buffer stores block pointers, but every operation depends on a block only
through `GetId()`, so entries are embedded as bare ids.  `table` is the array
of `tableSize` hash chains, each chain a list in the order the intrusive
`next` links produce. -/

structure NormBlockBuffer where
  table : List (List ℕ)
  hash_mask : ℕ
  range_max : ℕ
  range : ℕ
  range_lo : ℕ
  range_hi : ℕ
deriving DecidableEq, Repr

instance : Inhabited NormBlockBuffer := ⟨⟨[], 0, 0, 0, 0, 0⟩⟩

/-- `NormBlockBuffer::Init` (`normSegment.cpp:688-709`), including the
(buggy) table-size adjustment `if (tableSize & 0x07) tableSize = (tableSize >> 3) + 1`.
`range_lo`/`range_hi` are uninitialized in the C++ (they are only read when
`range > 0`); the embedding uses 0. -/
def NormBlockBuffer.Init (rangeMax tableSize : ℕ) : Option NormBlockBuffer :=
  if rangeMax = 0 ∨ tableSize = 0 then none
  else
    let ts := if tableSize &&& 7 ≠ 0 then (tableSize >>> 3) + 1 else tableSize
    some { table := List.replicate ts [], hash_mask := ts - 1, range_max := rangeMax,
           range := 0, range_lo := 0, range_hi := 0 }

/-- Hash of a block id: `((UINT32)blockId) & hash_mask`. -/
def NormBlockBuffer.bucketIdx (buf : NormBlockBuffer) (id : ℕ) : ℕ := id &&& buf.hash_mask

/-- The chain hanging off table slot `j`. -/
def NormBlockBuffer.bucket (buf : NormBlockBuffer) (j : ℕ) : List ℕ := buf.table.getD j []

/-- `NormBlockBuffer::Find` (`normSegment.cpp:729-744`): range check, then walk
the bucket chain for the id. -/
def NormBlockBuffer.Find (buf : NormBlockBuffer) (id : ℕ) : Option ℕ :=
  if buf.range ≠ 0 then
    if id < buf.range_lo ∨ buf.range_hi < id then none
    else if id ∈ buf.bucket (buf.bucketIdx id) then some id else none
  else none

/-- The chain-threading walk of `NormBlockBuffer::Insert`
(`normSegment.cpp:799-814`): advance while the entry id is `<` the new id,
then link in front of the first `≥` entry. -/
def chainInsert : List ℕ → ℕ → List ℕ
  | [], id => [id]
  | x :: xs, id => if x < id then x :: chainInsert xs id else id :: x :: xs

/-- Thread `id` into its bucket. -/
def NormBlockBuffer.insertChain (buf : NormBlockBuffer) (id : ℕ) : NormBlockBuffer :=
  let j := buf.bucketIdx id
  { buf with table := buf.table.set j (chainInsert (buf.bucket j) id) }

/-- `NormBlockBuffer::Insert` (`normSegment.cpp:777-816`); `none` is the
`false` (range overflow) return, which leaves the buffer unchanged. -/
def NormBlockBuffer.Insert (buf : NormBlockBuffer) (id : ℕ) : Option NormBlockBuffer :=
  let b0 := if buf.range = 0 then { buf with range_lo := id, range_hi := id, range := 1 }
            else buf
  if id < b0.range_lo then
    let newRange := b0.range_lo - id + b0.range
    if b0.range_max < newRange then none
    else some (NormBlockBuffer.insertChain { b0 with range_lo := id, range := newRange } id)
  else if b0.range_hi < id then
    let newRange := id - b0.range_hi + b0.range
    if b0.range_max < newRange then none
    else some (NormBlockBuffer.insertChain { b0 with range_hi := id, range := newRange } id)
  else some (NormBlockBuffer.insertChain b0 id)

/-- One step of the ascending circular bucket scan: `++i &= hash_mask`. -/
def stepUp (mask i : ℕ) : ℕ := (i + 1) &&& mask

/-- One step of the descending circular bucket scan: `--i &= hash_mask` with
`UINT32` wrap-around; for the power-of-two masks the theorems assume,
`(i - 1) mod 2^n = (i + mask) mod 2^n`, which is what this computes. -/
def stepDown (mask i : ℕ) : ℕ := (i + mask) &&& mask

/-- The probed slot sequence of a `do { ... } while (i != endex)` bucket scan:
step, visit, stop after visiting `endex`.  The C++ loop has no fuel; callers
pass `hash_mask + 1`, which the scan-correctness proofs show suffices for
power-of-two tables (the loop then always reaches `endex`). -/
def probeList (step : ℕ → ℕ) (endex : ℕ) : ℕ → ℕ → List ℕ
  | _, 0 => []
  | i, fuel + 1 =>
    let i2 := step i
    if i2 = endex then [i2] else i2 :: probeList step endex i2 fuel

/-- Chain walk of the `range_lo` reseek (`normSegment.cpp:861-867`): look for
the exact target id, meanwhile tracking the smallest id `> blockId` seen. -/
def chainScanLo (blockId target : ℕ) : List ℕ → ℕ → Bool × ℕ
  | [], nextId => (false, nextId)
  | x :: xs, nextId =>
    if x = target then (true, nextId)
    else chainScanLo blockId target xs (if blockId < x ∧ x < nextId then x else nextId)

/-- Chain walk of the `range_hi` reseek (`normSegment.cpp:899-904`): look for
the exact target id, meanwhile tracking the largest id `< blockId` seen. -/
def chainScanHi (blockId target : ℕ) : List ℕ → ℕ → Bool × ℕ
  | [], prevId => (false, prevId)
  | x :: xs, prevId =>
    if x = target then (true, prevId)
    else chainScanHi blockId target xs (if x < blockId ∧ prevId < x then x else prevId)

/-- The ascending bucket scan of the `range_lo` reseek over the probed slots,
with the running offset; target at offset `k` is `blockId + k`. -/
def NormBlockBuffer.scanLo (buf : NormBlockBuffer) (blockId : ℕ) :
    List ℕ → ℕ → ℕ → Option ℕ × ℕ
  | [], _, nextId => (none, nextId)
  | i :: rest, offset, nextId =>
    let r := chainScanLo blockId (blockId + offset) (buf.bucket i) nextId
    if r.1 then (some (blockId + offset), r.2)
    else buf.scanLo blockId rest (offset + 1) r.2

/-- The descending bucket scan of the `range_hi` reseek; target at offset `k`
is `(UINT32)blockId - k`, embedded as the truncated `blockId - k` (for
`k > blockId` the C++ value is a wrapped huge id that matches no entry; the
truncated value 0 likewise matches no entry in the probed slot for the
power-of-two tables the theorems assume, as proved in the scan lemmas). -/
def NormBlockBuffer.scanHi (buf : NormBlockBuffer) (blockId : ℕ) :
    List ℕ → ℕ → ℕ → Option ℕ × ℕ
  | [], _, prevId => (none, prevId)
  | i :: rest, offset, prevId =>
    let r := chainScanHi blockId (blockId - offset) (buf.bucket i) prevId
    if r.1 then (some (blockId - offset), r.2)
    else buf.scanHi blockId rest (offset + 1) r.2

/-- The `range_lo` reseek of `NormBlockBuffer::Remove`
(`normSegment.cpp:843-875`), run on the buffer with the block already
unlinked: circular ascending probe, then `entry ? entry->GetId() : nextId`. -/
def NormBlockBuffer.reseekLo (b1 : NormBlockBuffer) (blockId : ℕ) : ℕ :=
  let index := b1.bucketIdx blockId
  let endex := if b1.range ≤ b1.hash_mask then (index + b1.range - 1) &&& b1.hash_mask
               else index
  let probes := probeList (stepUp b1.hash_mask) endex index (b1.hash_mask + 1)
  let res := b1.scanLo blockId probes 1 b1.range_hi
  (res.1).getD res.2

/-- The `range_hi` reseek of `NormBlockBuffer::Remove`
(`normSegment.cpp:877-913`).  The `endex` is the `UINT32` value
`(index - range + 1) & hash_mask`, embedded (for `range - 1 ≤ hash_mask`, the
only case this branch takes) as `(index + (hash_mask+1) - (range-1)) & hash_mask`,
equal to it modulo the power-of-two table size. -/
def NormBlockBuffer.reseekHi (b1 : NormBlockBuffer) (blockId : ℕ) : ℕ :=
  let index := b1.bucketIdx blockId
  let endex := if b1.range ≤ b1.hash_mask then
                 (index + (b1.hash_mask + 1) - (b1.range - 1)) &&& b1.hash_mask
               else index
  let probes := probeList (stepDown b1.hash_mask) endex index (b1.hash_mask + 1)
  let res := b1.scanHi blockId probes 1 b1.range_lo
  (res.1).getD res.2

/-- The chain unlink step of `NormBlockBuffer::Remove`
(`normSegment.cpp:825-837`). -/
def NormBlockBuffer.eraseBlk (buf : NormBlockBuffer) (blockId : ℕ) : NormBlockBuffer :=
  let j := buf.bucketIdx blockId
  { buf with table := buf.table.set j ((buf.bucket j).erase blockId) }

/-- `NormBlockBuffer::Remove` (`normSegment.cpp:818-925`); `none` is the
`false` (not found) return. -/
def NormBlockBuffer.Remove (buf : NormBlockBuffer) (blockId : ℕ) : Option NormBlockBuffer :=
  if buf.range = 0 then none
  else if blockId < buf.range_lo ∨ buf.range_hi < blockId then none
  else
    let index := buf.bucketIdx blockId
    if blockId ∈ buf.bucket index then
      let b1 := buf.eraseBlk blockId
      if 1 < b1.range then
        if blockId = b1.range_lo then
          let newLo := b1.reseekLo blockId
          some { b1 with range_lo := newLo, range := b1.range_hi - newLo + 1 }
        else if blockId = b1.range_hi then
          let newHi := b1.reseekHi blockId
          some { b1 with range_hi := newHi, range := newHi - b1.range_lo + 1 }
        else some b1
      else some { b1 with range := 0 }
    else none

/-! ### NormBlockBuffer::Iterator (`normSegment.cpp:927-990`) -/

structure BlockBufferIterator where
  reset : Bool
  index : ℕ
deriving DecidableEq, Repr

/-- Chain walk of `Iterator::GetNextBlock` (`normSegment.cpp:969-974`). -/
def iterChainScan (indexPos target : ℕ) : List ℕ → ℕ → Bool × ℕ
  | [], nextId => (false, nextId)
  | x :: xs, nextId =>
    if x = target then (true, nextId)
    else iterChainScan indexPos target xs (if indexPos < x ∧ x < nextId then x else nextId)

/-- The ascending bucket scan of `Iterator::GetNextBlock` over the probed
slots; the third component records the slot index probed at each visit (the
value the source asserts to be `< 256`). -/
def NormBlockBuffer.iterScan (buf : NormBlockBuffer) (indexPos : ℕ) :
    List ℕ → ℕ → ℕ → Option ℕ × ℕ × List ℕ
  | [], _, nextId => (none, nextId, [])
  | i :: rest, offset, nextId =>
    let r := iterChainScan indexPos (indexPos + offset) (buf.bucket i) nextId
    if r.1 then (some (indexPos + offset), r.2, [i])
    else
      let res := buf.iterScan indexPos rest (offset + 1) r.2
      (res.1, res.2.1, i :: res.2.2)

/-- `NormBlockBuffer::Iterator::GetNextBlock` (`normSegment.cpp:932-990`):
returns the found block id (if any), the advanced iterator, and the list of
probed table slots. -/
def NormBlockBuffer.GetNextBlock (buf : NormBlockBuffer) (it : BlockBufferIterator) :
    Option ℕ × BlockBufferIterator × List ℕ :=
  if it.reset then
    if buf.range ≠ 0 then (buf.Find buf.range_lo, ⟨false, buf.range_lo⟩, [])
    else (none, it, [])
  else
    if buf.range ≠ 0 ∧ it.index < buf.range_hi ∧ buf.range_lo ≤ it.index then
      let endex := if buf.range_hi - it.index ≤ buf.hash_mask
                   then buf.range_hi &&& buf.hash_mask else it.index
      let probes := probeList (stepUp buf.hash_mask) endex it.index (buf.hash_mask + 1)
      let res := buf.iterScan it.index probes 1 buf.range_hi
      match res.1 with
      | some id => (some id, ⟨false, id⟩, res.2.2)
      | none => (buf.Find res.2.1, ⟨false, res.2.1⟩, res.2.2)
    else (none, it, [])

/-! ## Claim C2: Init's table-size rounding -/

/-- C2 (code bug): the code's own comment says "Make sure tableSize is greater
than 0 and 2^n", and the claim says `tableSize` is rounded up to the next
power of two; but `if (tableSize & 0x07) tableSize = (tableSize >> 3) + 1`
does neither: 5 collapses to 1 (not up to 8), 2 collapses to 1 although it
already is a power of two, and 24 stays 24 — not a power of two at all
(`2^4 < 24 < 2^5`) — making `hash_mask = 23`. -/
theorem c2_init_tableSize_bug :
    NormBlockBuffer.Init 1 5 = some ⟨List.replicate 1 [], 0, 1, 0, 0, 0⟩ ∧
    NormBlockBuffer.Init 1 2 = some ⟨List.replicate 1 [], 0, 1, 0, 0, 0⟩ ∧
    NormBlockBuffer.Init 1 24 = some ⟨List.replicate 24 [], 23, 1, 0, 0, 0⟩ ∧
    2 ^ 4 < 24 ∧ 24 < 2 ^ 5 := by
  refine ⟨by decide, by decide, by decide, by decide, by decide⟩

/-! ## Claim C10: the iterator's `ASSERT(i < 256)` -/

/-- Every slot the ascending probe sequence visits is masked, hence
`≤ hash_mask`. -/
theorem probeList_stepUp_le_mask (mask endex : ℕ) :
    ∀ (fuel i : ℕ), ∀ p ∈ probeList (stepUp mask) endex i fuel, p ≤ mask := by
  intro fuel
  induction fuel with
  | zero => intro i p hp; simp [probeList] at hp
  | succ n ih =>
    intro i p hp
    simp only [probeList, stepUp] at hp
    by_cases h : (i + 1) &&& mask = endex
    · simp only [h, if_true, List.mem_singleton] at hp
      subst hp
      rw [← h]
      exact Nat.and_le_right
    · simp only [h, if_false, List.mem_cons] at hp
      rcases hp with rfl | hp
      · exact Nat.and_le_right
      · exact ih ((i + 1) &&& mask) p hp

/-- The slots `iterScan` reports are among the probe list it was given. -/
theorem iterScan_probes_subset (buf : NormBlockBuffer) (indexPos : ℕ) :
    ∀ (probes : List ℕ) (offset nextId : ℕ),
      ∀ p ∈ (buf.iterScan indexPos probes offset nextId).2.2, p ∈ probes := by
  intro probes
  induction probes with
  | nil => intro offset nextId p hp; simp [NormBlockBuffer.iterScan] at hp
  | cons i rest ih =>
    intro offset nextId p hp
    rcases hb : iterChainScan indexPos (indexPos + offset) (buf.bucket i) nextId
      with ⟨found, nId⟩
    cases found
    · simp [NormBlockBuffer.iterScan, hb] at hp
      rcases hp with rfl | hp
      · exact List.mem_cons_self _ _
      · exact List.mem_cons_of_mem _ (ih _ _ p hp)
    · simp [NormBlockBuffer.iterScan, hb] at hp
      simp [hp]

/-- C10 (amended): every table slot `GetNextBlock` probes is at most
`hash_mask` (i.e. strictly less than the table size), in every buffer state
and for every iterator; consequently the source's hard-coded `ASSERT(i < 256)`
is valid exactly when the table size is at most 256 — for larger accepted
table sizes it is violated (see the counterexample). -/
theorem c10_iterator_probe_bound (buf : NormBlockBuffer) (it : BlockBufferIterator)
    (p : ℕ) (hp : p ∈ (buf.GetNextBlock it).2.2) :
    p ≤ buf.hash_mask ∧ (buf.hash_mask < 256 → p < 256) := by
  have hle : p ≤ buf.hash_mask := by
    by_cases h1 : it.reset
    · by_cases h2 : buf.range ≠ 0 <;>
        simp [NormBlockBuffer.GetNextBlock, h1, h2] at hp
    · by_cases h2 : buf.range ≠ 0 ∧ it.index < buf.range_hi ∧ buf.range_lo ≤ it.index
      · simp only [NormBlockBuffer.GetNextBlock] at hp
        rw [if_neg (by simpa using h1), if_pos h2] at hp
        rcases hcase : (buf.iterScan it.index
            (probeList (stepUp buf.hash_mask)
              (if buf.range_hi - it.index ≤ buf.hash_mask
               then buf.range_hi &&& buf.hash_mask else it.index)
              it.index (buf.hash_mask + 1)) 1 buf.range_hi).1 with _ | id <;>
          rw [hcase] at hp <;>
          dsimp only at hp <;>
          exact probeList_stepUp_le_mask _ _ _ _ p
            (iterScan_probes_subset _ _ _ _ _ p hp)
      · simp only [NormBlockBuffer.GetNextBlock] at hp
        rw [if_neg (by simpa using h1), if_neg h2] at hp
        simp at hp
  exact ⟨hle, fun hm => lt_of_le_of_lt hle hm⟩

/-- A buffer reachable through `Init`/`Insert` with an accepted table size of
512 slots. -/
def c10buf : NormBlockBuffer :=
  ((((NormBlockBuffer.Init 200 512).bind (fun b => b.Insert 300)).bind
    (fun b => b.Insert 400))).getD default

set_option maxRecDepth 8000 in
/-- C10 counterexample: with `Init(200, 512)` (accepted: 512 is a multiple of
8, so the adjustment leaves it alone and `hash_mask = 511`) and live ids
{300, 400}, the second `GetNextBlock` call probes slot 301, so the internal
assertion `i < 256` does not hold in this reachable state. -/
theorem c10_iterator_assert_counterexample :
    ((((NormBlockBuffer.Init 200 512).bind (fun b => b.Insert 300)).bind
        (fun b => b.Insert 400))) = some c10buf ∧
    301 ∈ (c10buf.GetNextBlock ((c10buf.GetNextBlock ⟨true, 0⟩).2.1)).2.2 ∧
    ¬ (301 < 256) := by
  refine ⟨rfl, by decide, by decide⟩

set_option maxRecDepth 8000 in
/-- Witness for C10 (amended), applying it to the 512-slot buffer at probed
slot 301. -/
theorem c10_iterator_probe_bound_witness :
    (301 : ℕ) ≤ c10buf.hash_mask ∧ (c10buf.hash_mask < 256 → (301 : ℕ) < 256) :=
  c10_iterator_probe_bound c10buf ((c10buf.GetNextBlock ⟨true, 0⟩).2.1) 301 (by decide)

/-! ## Claim C4 groundwork: buffer well-formedness -/

/-- The multiset of live ids, as the concatenation of all chains. -/
def NormBlockBuffer.live (buf : NormBlockBuffer) : List ℕ := buf.table.flatten

theorem bucket_of_set_self (buf : NormBlockBuffer) (j : ℕ) (l : List ℕ)
    (hj : j < buf.table.length) :
    NormBlockBuffer.bucket { buf with table := buf.table.set j l } j = l := by
  simp [NormBlockBuffer.bucket, List.getD_eq_getElem?_getD, List.getElem?_set_self hj]

theorem bucket_of_set_ne (buf : NormBlockBuffer) (j k : ℕ) (l : List ℕ) (h : j ≠ k) :
    NormBlockBuffer.bucket { buf with table := buf.table.set j l } k = buf.bucket k := by
  simp [NormBlockBuffer.bucket, List.getD_eq_getElem?_getD, List.getElem?_set_ne h]

theorem bucket_eq_getElem (buf : NormBlockBuffer) (j : ℕ) (hj : j < buf.table.length) :
    buf.bucket j = buf.table[j] := by
  simp [NormBlockBuffer.bucket, List.getD_eq_getElem?_getD, List.getElem?_eq_getElem hj]

/-- Well-formedness of a block buffer: a power-of-two table (the
configuration §3 of the spec prescribes: "a hash table ... sized to a power
of two"), each chain holding only ids hashing to its slot in strictly
ascending order, and range bookkeeping that matches the live id set. -/
structure NormBlockBuffer.WF (buf : NormBlockBuffer) : Prop where
  pow : ∃ m, buf.hash_mask + 1 = 2 ^ m
  len : buf.table.length = buf.hash_mask + 1
  maxpos : 0 < buf.range_max
  hash : ∀ j, ∀ id ∈ buf.bucket j, id &&& buf.hash_mask = j
  chains : ∀ j, (buf.bucket j).Sorted (· < ·)
  empty0 : buf.range = 0 → buf.live = []
  occupied : buf.range ≠ 0 →
    buf.range_lo ∈ buf.live ∧ buf.range_hi ∈ buf.live ∧
    (∀ id ∈ buf.live, buf.range_lo ≤ id ∧ id ≤ buf.range_hi) ∧
    buf.range = buf.range_hi - buf.range_lo + 1 ∧ buf.range ≤ buf.range_max

/-- A live id sits in (exactly) its hash bucket. -/
theorem mem_live_iff (buf : NormBlockBuffer)
    (hlen : buf.table.length = buf.hash_mask + 1)
    (hhash : ∀ j, ∀ id ∈ buf.bucket j, id &&& buf.hash_mask = j) (x : ℕ) :
    x ∈ buf.live ↔ x ∈ buf.bucket (buf.bucketIdx x) := by
  constructor
  · intro hx
    rcases List.mem_flatten.mp hx with ⟨l, hl, hxl⟩
    rcases List.mem_iff_getElem.mp hl with ⟨j, hj, rfl⟩
    have hb : buf.bucket j = buf.table[j] := bucket_eq_getElem buf j hj
    have hxb : x ∈ buf.bucket j := by rw [hb]; exact hxl
    have hhx := hhash j x hxb
    simp only [NormBlockBuffer.bucketIdx]
    rw [hhx]
    exact hxb
  · intro hx
    have hle : buf.bucketIdx x < buf.table.length := by
      rw [hlen]
      exact Nat.lt_succ_of_le Nat.and_le_right
    rw [bucket_eq_getElem buf _ hle] at hx
    exact List.mem_flatten.mpr ⟨_, List.getElem_mem _, hx⟩

theorem chainInsert_mem : ∀ (l : List ℕ) (a x : ℕ), x ∈ chainInsert l a ↔ x = a ∨ x ∈ l := by
  intro l
  induction l with
  | nil => intro a x; simp [chainInsert]
  | cons y ys ih =>
    intro a x
    simp only [chainInsert]
    by_cases h : y < a
    · simp only [h, if_true, List.mem_cons, ih]
      tauto
    · simp only [h, if_false, List.mem_cons]

theorem chainInsert_sorted : ∀ (l : List ℕ) (a : ℕ), l.Sorted (· < ·) → a ∉ l →
    (chainInsert l a).Sorted (· < ·) := by
  intro l
  induction l with
  | nil => intro a _ _; simp [chainInsert]
  | cons y ys ih =>
    intro a hs ha
    rw [List.sorted_cons] at hs
    by_cases h : y < a
    · simp only [chainInsert, h, if_true]
      rw [List.sorted_cons]
      refine ⟨?_, ih a hs.2 (fun hm => ha (List.mem_cons_of_mem _ hm))⟩
      intro b hb
      rcases (chainInsert_mem ys a b).mp hb with rfl | hb
      · exact h
      · exact hs.1 b hb
    · have hne : a ≠ y := fun heq => ha (heq ▸ List.mem_cons_self y ys)
      have hlt : a < y := by omega
      simp only [chainInsert, h, if_false]
      rw [List.sorted_cons]
      refine ⟨?_, List.sorted_cons.mpr hs⟩
      intro b hb
      rcases List.mem_cons.mp hb with rfl | hb
      · exact hlt
      · exact lt_trans hlt (hs.1 b hb)

/-- Effect of threading a fresh id into its bucket. -/
theorem insertChain_wf (buf : NormBlockBuffer) (id : ℕ)
    (hlen : buf.table.length = buf.hash_mask + 1)
    (hhash : ∀ j, ∀ x ∈ buf.bucket j, x &&& buf.hash_mask = j)
    (hsort : ∀ j, (buf.bucket j).Sorted (· < ·))
    (hid : id ∉ buf.live) :
    (buf.insertChain id).table.length = buf.hash_mask + 1 ∧
    (∀ j, ∀ x ∈ (buf.insertChain id).bucket j, x &&& buf.hash_mask = j) ∧
    (∀ j, ((buf.insertChain id).bucket j).Sorted (· < ·)) ∧
    (∀ x, x ∈ (buf.insertChain id).live ↔ x = id ∨ x ∈ buf.live) := by
  have hj0 : buf.bucketIdx id < buf.table.length := by
    rw [hlen]; exact Nat.lt_succ_of_le Nat.and_le_right
  have hbuck : ∀ j, (buf.insertChain id).bucket j =
      if j = buf.bucketIdx id then chainInsert (buf.bucket (buf.bucketIdx id)) id
      else buf.bucket j := by
    intro j
    by_cases hj : j = buf.bucketIdx id
    · subst hj
      simp only [if_true]
      exact bucket_of_set_self buf _ _ hj0
    · simp only [hj, if_false]
      exact bucket_of_set_ne buf _ _ _ (fun h => hj h.symm)
  have hidb : id ∉ buf.bucket (buf.bucketIdx id) := by
    intro hmem
    exact hid ((mem_live_iff buf hlen hhash id).mpr hmem)
  have hlen2 : (buf.insertChain id).table.length = buf.hash_mask + 1 := by
    simp only [NormBlockBuffer.insertChain, List.length_set]
    exact hlen
  have hhash2 : ∀ j, ∀ x ∈ (buf.insertChain id).bucket j, x &&& buf.hash_mask = j := by
    intro j x hx
    rw [hbuck j] at hx
    by_cases hj : j = buf.bucketIdx id
    · rw [hj]
      simp only [hj, if_true] at hx
      rcases (chainInsert_mem _ _ _).mp hx with rfl | hx
      · rfl
      · exact hhash _ x hx
    · simp only [hj, if_false] at hx
      exact hhash _ x hx
  refine ⟨hlen2, hhash2, ?_, ?_⟩
  · intro j
    rw [hbuck j]
    by_cases hj : j = buf.bucketIdx id
    · simp only [hj, if_true]
      exact chainInsert_sorted _ _ (hsort _) hidb
    · simp only [hj, if_false]
      exact hsort j
  · intro x
    have hbidx : (buf.insertChain id).bucketIdx x = buf.bucketIdx x := rfl
    have hm1 := mem_live_iff (buf.insertChain id) hlen2 hhash2 x
    rw [hm1, hbidx, hbuck]
    by_cases hx2 : buf.bucketIdx x = buf.bucketIdx id
    · rw [hx2]
      simp only [if_true]
      rw [chainInsert_mem, ← hx2]
      rw [mem_live_iff buf hlen hhash x]
    · simp only [hx2, if_false]
      rw [← mem_live_iff buf hlen hhash x]
      constructor
      · exact Or.inr
      · rintro (rfl | hm)
        · exact absurd rfl hx2
        · exact hm

/-- `Insert` preserves well-formedness and adds exactly the new id. -/
theorem insert_preserves_wf (buf : NormBlockBuffer) (id : ℕ) (hwf : buf.WF)
    (hid : id ∉ buf.live) (buf2 : NormBlockBuffer) (h : buf.Insert id = some buf2) :
    buf2.WF ∧ (∀ x, x ∈ buf2.live ↔ x = id ∨ x ∈ buf.live) := by
  by_cases hr0 : buf.range = 0
  · have hb : buf.Insert id = some (NormBlockBuffer.insertChain
        { buf with range_lo := id, range_hi := id, range := 1 } id) := by
      simp [NormBlockBuffer.Insert, hr0]
    rw [hb] at h
    obtain rfl : NormBlockBuffer.insertChain
        { buf with range_lo := id, range_hi := id, range := 1 } id = buf2 :=
      Option.some_injective _ h
    have hlive0 : buf.live = [] := hwf.empty0 hr0
    obtain ⟨hlen2, hhash2, hsort2, hlive2⟩ := insertChain_wf
      { buf with range_lo := id, range_hi := id, range := 1 } id hwf.len hwf.hash
      hwf.chains (by simpa [NormBlockBuffer.live, hlive0] using hid)
    refine ⟨⟨hwf.pow, hlen2, hwf.maxpos, hhash2, hsort2, ?_, ?_⟩, ?_⟩
    · intro hc
      have hc1 : (NormBlockBuffer.insertChain
          { buf with range_lo := id, range_hi := id, range := 1 } id).range = 1 := rfl
      omega
    · intro _
      have hin : id ∈ (NormBlockBuffer.insertChain
          { buf with range_lo := id, range_hi := id, range := 1 } id).live :=
        (hlive2 id).mpr (Or.inl rfl)
      refine ⟨hin, hin, ?_, ?_, ?_⟩
      · intro x hx
        rcases (hlive2 x).mp hx with rfl | hx
        · exact ⟨le_refl _, le_refl _⟩
        · have hbl : ({ buf with range_lo := id, range_hi := id, range := 1 } : NormBlockBuffer).live = buf.live := rfl
          rw [hbl, hlive0] at hx
          simp at hx
      · show (1 : ℕ) = id - id + 1
        omega
      · show (1 : ℕ) ≤ buf.range_max
        have := hwf.maxpos
        omega
    · intro x
      rw [hlive2 x]
      exact Iff.rfl
  · obtain ⟨hlo, hhi, hbounds, hrange, hmax⟩ := hwf.occupied hr0
    have hlohi : buf.range_lo ≤ buf.range_hi := (hbounds _ hhi).1
    by_cases hlt : id < buf.range_lo
    · by_cases hov : buf.range_max < buf.range_lo - id + buf.range
      · exfalso
        have : buf.Insert id = none := by
          simp [NormBlockBuffer.Insert, hr0, hlt, hov]
        rw [this] at h
        exact Option.noConfusion h
      · have hb : buf.Insert id = some (NormBlockBuffer.insertChain
            { buf with range_lo := id, range := buf.range_lo - id + buf.range } id) := by
          simp [NormBlockBuffer.Insert, hr0, hlt, hov]
        rw [hb] at h
        obtain rfl := Option.some_injective _ h
        obtain ⟨hlen2, hhash2, hsort2, hlive2⟩ := insertChain_wf
          { buf with range_lo := id, range := buf.range_lo - id + buf.range } id
          hwf.len hwf.hash hwf.chains hid
        refine ⟨⟨hwf.pow, hlen2, hwf.maxpos, hhash2, hsort2, ?_, ?_⟩, fun x => hlive2 x⟩
        · intro hc
          have hc1 : (NormBlockBuffer.insertChain
              { buf with range_lo := id, range := buf.range_lo - id + buf.range } id).range =
              buf.range_lo - id + buf.range := rfl
          omega
        · intro _
          refine ⟨(hlive2 _).mpr (Or.inl rfl), (hlive2 _).mpr (Or.inr hhi), ?_, ?_, ?_⟩
          · intro x hx
            rcases (hlive2 x).mp hx with rfl | hx
            · constructor
              · exact le_refl _
              · show x ≤ buf.range_hi
                omega
            · have := hbounds x hx
              constructor
              · show id ≤ x
                omega
              · exact this.2
          · show buf.range_lo - id + buf.range = buf.range_hi - id + 1
            omega
          · show buf.range_lo - id + buf.range ≤ buf.range_max
            omega
    · by_cases hgt : buf.range_hi < id
      · by_cases hov : buf.range_max < id - buf.range_hi + buf.range
        · exfalso
          have : buf.Insert id = none := by
            simp [NormBlockBuffer.Insert, hr0, hlt, hgt, hov]
          rw [this] at h
          exact Option.noConfusion h
        · have hb : buf.Insert id = some (NormBlockBuffer.insertChain
              { buf with range_hi := id, range := id - buf.range_hi + buf.range } id) := by
            simp [NormBlockBuffer.Insert, hr0, hlt, hgt, hov]
          rw [hb] at h
          obtain rfl := Option.some_injective _ h
          obtain ⟨hlen2, hhash2, hsort2, hlive2⟩ := insertChain_wf
            { buf with range_hi := id, range := id - buf.range_hi + buf.range } id
            hwf.len hwf.hash hwf.chains hid
          refine ⟨⟨hwf.pow, hlen2, hwf.maxpos, hhash2, hsort2, ?_, ?_⟩, fun x => hlive2 x⟩
          · intro hc
            have hc1 : (NormBlockBuffer.insertChain
                { buf with range_hi := id, range := id - buf.range_hi + buf.range } id).range =
                id - buf.range_hi + buf.range := rfl
            omega
          · intro _
            refine ⟨(hlive2 _).mpr (Or.inr hlo), (hlive2 _).mpr (Or.inl rfl), ?_, ?_, ?_⟩
            · intro x hx
              rcases (hlive2 x).mp hx with rfl | hx
              · constructor
                · show buf.range_lo ≤ x
                  omega
                · exact le_refl _
              · have := hbounds x hx
                constructor
                · exact this.1
                · show x ≤ id
                  omega
            · show id - buf.range_hi + buf.range = id - buf.range_lo + 1
              omega
            · show id - buf.range_hi + buf.range ≤ buf.range_max
              omega
      · have hb : buf.Insert id = some (NormBlockBuffer.insertChain buf id) := by
          simp [NormBlockBuffer.Insert, hr0, hlt, hgt]
        rw [hb] at h
        obtain rfl := Option.some_injective _ h
        obtain ⟨hlen2, hhash2, hsort2, hlive2⟩ := insertChain_wf buf id
          hwf.len hwf.hash hwf.chains hid
        refine ⟨⟨hwf.pow, hlen2, hwf.maxpos, hhash2, hsort2, ?_, ?_⟩, fun x => hlive2 x⟩
        · intro hc
          have hc1 : (NormBlockBuffer.insertChain buf id).range = buf.range := rfl
          omega
        · intro _
          refine ⟨(hlive2 _).mpr (Or.inr hlo), (hlive2 _).mpr (Or.inr hhi), ?_, ?_, ?_⟩
          · intro x hx
            rcases (hlive2 x).mp hx with rfl | hx
            · constructor
              · show buf.range_lo ≤ x
                omega
              · show x ≤ buf.range_hi
                omega
            · exact hbounds x hx
          · show buf.range = buf.range_hi - buf.range_lo + 1
            exact hrange
          · show buf.range ≤ buf.range_max
            exact hmax

/-! ### Probe-sequence arithmetic for the circular bucket scans -/

theorem and_mask_eq_mod (M x : ℕ) : x &&& (2 ^ M - 1) = x % 2 ^ M :=
  Nat.and_pow_two_sub_one_eq_mod x M

theorem mod_add_cancel (N a c1 c2 : ℕ) (h1 : c1 ≤ c2) (h2 : c2 - c1 < N)
    (h : (a + c1) % N = (a + c2) % N) : c1 = c2 := by
  have hm : a + c1 ≡ a + c2 [MOD N] := h
  have h3 : c1 ≡ c2 [MOD N] := Nat.ModEq.add_left_cancel' a hm
  have h4 := (Nat.modEq_iff_dvd' h1).mp h3
  have h5 := Nat.eq_zero_of_dvd_of_lt h4
  rcases Nat.eq_zero_or_pos (c2 - c1) with h6 | h6
  · omega
  · have := h5 h2
    omega

/-- The ascending `do { ++i &= hash_mask; ... } while (i != endex)` probe
sequence on a power-of-two table, walked from slot `(index + c) % 2^M` with
`endex = (index + j) % 2^M`: it visits `(index + k) % 2^M` for
`k = c+1, ..., j`. -/
theorem probeList_stepUp_eq (M index j : ℕ)
    (hj1 : 1 ≤ j) (hjN : j ≤ 2 ^ M) :
    ∀ (fuel c : ℕ), c < j → j - c ≤ fuel →
      probeList (stepUp (2 ^ M - 1)) ((index + j) % 2 ^ M) ((index + c) % 2 ^ M) fuel =
      (List.range' (c + 1) (j - c)).map (fun k => (index + k) % 2 ^ M) := by
  intro fuel
  induction fuel with
  | zero => intro c hc hf; omega
  | succ f ih =>
    intro c hc hf
    have hN : 0 < 2 ^ M := Nat.two_pow_pos M
    have hstep : stepUp (2 ^ M - 1) ((index + c) % 2 ^ M) = (index + (c + 1)) % 2 ^ M := by
      simp only [stepUp]
      rw [and_mask_eq_mod, Nat.mod_add_mod, Nat.add_assoc]
    simp only [probeList, hstep]
    by_cases hc1 : c + 1 = j
    · rw [if_pos (by rw [hc1]), hc1]
      have hj : j - c = 1 := by omega
      rw [hj]
      simp [List.range']
    · have hne : (index + (c + 1)) % 2 ^ M ≠ (index + j) % 2 ^ M := by
        intro heq
        exact hc1 (mod_add_cancel (2 ^ M) index (c + 1) j (by omega) (by omega) heq)
      rw [if_neg hne, ih (c + 1) (by omega) (by omega)]
      have hjc : j - c = (j - (c + 1)) + 1 := by omega
      rw [hjc, List.range'_succ]
      simp

/-- The descending probe sequence (`--i &= hash_mask`), walked from
`(index + (2^M - c)) % 2^M` with `endex = (index + (2^M - j)) % 2^M`: it
visits `(index + (2^M - k)) % 2^M` for `k = c+1, ..., j`. -/
theorem probeList_stepDown_eq (M index j : ℕ)
    (hj1 : 1 ≤ j) (hjN : j ≤ 2 ^ M) :
    ∀ (fuel c : ℕ), c < j → j - c ≤ fuel →
      probeList (stepDown (2 ^ M - 1)) ((index + (2 ^ M - j)) % 2 ^ M)
        ((index + (2 ^ M - c)) % 2 ^ M) fuel =
      (List.range' (c + 1) (j - c)).map (fun k => (index + (2 ^ M - k)) % 2 ^ M) := by
  intro fuel
  induction fuel with
  | zero => intro c hc hf; omega
  | succ f ih =>
    intro c hc hf
    have hN : 0 < 2 ^ M := Nat.two_pow_pos M
    have hstep : stepDown (2 ^ M - 1) ((index + (2 ^ M - c)) % 2 ^ M) =
        (index + (2 ^ M - (c + 1))) % 2 ^ M := by
      simp only [stepDown]
      rw [and_mask_eq_mod, Nat.mod_add_mod]
      have harith : index + (2 ^ M - c) + (2 ^ M - 1) =
          (index + (2 ^ M - (c + 1))) + 2 ^ M := by omega
      rw [harith, Nat.add_mod_right]
    simp only [probeList, hstep]
    by_cases hc1 : c + 1 = j
    · rw [if_pos (by rw [hc1]), hc1]
      have hj : j - c = 1 := by omega
      rw [hj]
      simp [List.range']
    · have hne : (index + (2 ^ M - (c + 1))) % 2 ^ M ≠ (index + (2 ^ M - j)) % 2 ^ M := by
        intro heq
        have := mod_add_cancel (2 ^ M) index (2 ^ M - j) (2 ^ M - (c + 1))
          (by omega) (by omega) heq.symm
        omega
      rw [if_neg hne, ih (c + 1) (by omega) (by omega)]
      have hjc : j - c = (j - (c + 1)) + 1 := by omega
      rw [hjc, List.range'_succ]
      simp

/-! ### Chain-scan specifications -/

theorem chainScanLo_spec (blockId target : ℕ) :
    ∀ (chain : List ℕ) (nextId : ℕ),
      ((chainScanLo blockId target chain nextId).1 = true ↔ target ∈ chain) ∧
      ((chainScanLo blockId target chain nextId).1 = false →
        ((chainScanLo blockId target chain nextId).2 = nextId ∨
          ((chainScanLo blockId target chain nextId).2 ∈ chain ∧
            blockId < (chainScanLo blockId target chain nextId).2)) ∧
        (chainScanLo blockId target chain nextId).2 ≤ nextId ∧
        (∀ x ∈ chain, blockId < x → (chainScanLo blockId target chain nextId).2 ≤ x)) := by
  intro chain
  induction chain with
  | nil =>
    intro nextId
    simp [chainScanLo]
  | cons y ys ih =>
    intro nextId
    by_cases hy : y = target
    · subst hy
      constructor
      · simp [chainScanLo]
      · intro hfalse
        simp [chainScanLo] at hfalse
    · have hmemiff : ∀ nId, ((chainScanLo blockId target ys nId).1 = true ↔
          target ∈ y :: ys) := by
        intro nId
        rw [(ih nId).1]
        constructor
        · exact fun h => List.mem_cons_of_mem _ h
        · intro h
          rcases List.mem_cons.mp h with heq | h
          · exact absurd heq.symm hy
          · exact h
      by_cases hcond : blockId < y ∧ y < nextId
      · have heval : chainScanLo blockId target (y :: ys) nextId =
            chainScanLo blockId target ys y := by
          simp only [chainScanLo, hy, if_false, if_pos hcond]
        rw [heval]
        refine ⟨hmemiff y, ?_⟩
        intro hfalse
        obtain ⟨ha, hb, hc⟩ := (ih y).2 hfalse
        refine ⟨?_, ?_, ?_⟩
        · rcases ha with ha | ha
          · refine Or.inr ⟨?_, ?_⟩
            · rw [ha]; exact List.mem_cons_self y ys
            · rw [ha]; exact hcond.1
          · exact Or.inr ⟨List.mem_cons_of_mem _ ha.1, ha.2⟩
        · exact le_trans hb (le_of_lt hcond.2)
        · intro x hx hbx
          rcases List.mem_cons.mp hx with rfl | hx
          · exact hb
          · exact hc x hx hbx
      · have heval : chainScanLo blockId target (y :: ys) nextId =
            chainScanLo blockId target ys nextId := by
          simp only [chainScanLo, hy, if_false, if_neg hcond]
        rw [heval]
        refine ⟨hmemiff nextId, ?_⟩
        intro hfalse
        obtain ⟨ha, hb, hc⟩ := (ih nextId).2 hfalse
        refine ⟨?_, hb, ?_⟩
        · rcases ha with ha | ha
          · exact Or.inl ha
          · exact Or.inr ⟨List.mem_cons_of_mem _ ha.1, ha.2⟩
        · intro x hx hbx
          rcases List.mem_cons.mp hx with rfl | hx
          · have hxe : nextId ≤ x := by omega
            exact le_trans hb hxe
          · exact hc x hx hbx

theorem chainScanHi_spec (blockId target : ℕ) :
    ∀ (chain : List ℕ) (prevId : ℕ),
      ((chainScanHi blockId target chain prevId).1 = true ↔ target ∈ chain) ∧
      ((chainScanHi blockId target chain prevId).1 = false →
        ((chainScanHi blockId target chain prevId).2 = prevId ∨
          ((chainScanHi blockId target chain prevId).2 ∈ chain ∧
            (chainScanHi blockId target chain prevId).2 < blockId)) ∧
        prevId ≤ (chainScanHi blockId target chain prevId).2 ∧
        (∀ x ∈ chain, x < blockId → x ≤ (chainScanHi blockId target chain prevId).2)) := by
  intro chain
  induction chain with
  | nil =>
    intro prevId
    simp [chainScanHi]
  | cons y ys ih =>
    intro prevId
    by_cases hy : y = target
    · subst hy
      constructor
      · simp [chainScanHi]
      · intro hfalse
        simp [chainScanHi] at hfalse
    · have hmemiff : ∀ pId, ((chainScanHi blockId target ys pId).1 = true ↔
          target ∈ y :: ys) := by
        intro pId
        rw [(ih pId).1]
        constructor
        · exact fun h => List.mem_cons_of_mem _ h
        · intro h
          rcases List.mem_cons.mp h with heq | h
          · exact absurd heq.symm hy
          · exact h
      by_cases hcond : y < blockId ∧ prevId < y
      · have heval : chainScanHi blockId target (y :: ys) prevId =
            chainScanHi blockId target ys y := by
          simp only [chainScanHi, hy, if_false, if_pos hcond]
        rw [heval]
        refine ⟨hmemiff y, ?_⟩
        intro hfalse
        obtain ⟨ha, hb, hc⟩ := (ih y).2 hfalse
        refine ⟨?_, ?_, ?_⟩
        · rcases ha with ha | ha
          · refine Or.inr ⟨?_, ?_⟩
            · rw [ha]; exact List.mem_cons_self y ys
            · rw [ha]; exact hcond.1
          · exact Or.inr ⟨List.mem_cons_of_mem _ ha.1, ha.2⟩
        · exact le_trans (le_of_lt hcond.2) hb
        · intro x hx hbx
          rcases List.mem_cons.mp hx with rfl | hx
          · exact hb
          · exact hc x hx hbx
      · have heval : chainScanHi blockId target (y :: ys) prevId =
            chainScanHi blockId target ys prevId := by
          simp only [chainScanHi, hy, if_false, if_neg hcond]
        rw [heval]
        refine ⟨hmemiff prevId, ?_⟩
        intro hfalse
        obtain ⟨ha, hb, hc⟩ := (ih prevId).2 hfalse
        refine ⟨?_, hb, ?_⟩
        · rcases ha with ha | ha
          · exact Or.inl ha
          · exact Or.inr ⟨List.mem_cons_of_mem _ ha.1, ha.2⟩
        · intro x hx hbx
          rcases List.mem_cons.mp hx with rfl | hx
          · have hxe : x ≤ prevId := by omega
            exact le_trans hxe hb
          · exact hc x hx hbx

/-- Entries of a real bucket are live. -/
theorem bucket_subset_live (buf : NormBlockBuffer)
    (hlen : buf.table.length = buf.hash_mask + 1)
    (hhash : ∀ j, ∀ x ∈ buf.bucket j, x &&& buf.hash_mask = j)
    (j x : ℕ) (hx : x ∈ buf.bucket j) : x ∈ buf.live := by
  have hj := hhash j x hx
  refine (mem_live_iff buf hlen hhash x).mpr ?_
  simp only [NormBlockBuffer.bucketIdx]
  rw [hj]
  exact hx

/-- With a power-of-two table, the hash is reduction mod the table size. -/
theorem bucketIdx_eq_mod (buf : NormBlockBuffer) (M : ℕ)
    (hmask : buf.hash_mask + 1 = 2 ^ M) (x : ℕ) :
    buf.bucketIdx x = x % 2 ^ M := by
  simp only [NormBlockBuffer.bucketIdx]
  have hm : buf.hash_mask = 2 ^ M - 1 := by omega
  rw [hm, and_mask_eq_mod]

/-- Specification of the ascending reseek scan `scanLo`: either it finds the
first offset past `blockId` whose id is live, or it reports that no probed
offset is live and returns the smallest live id above `blockId` among the
scanned chains (never increasing the running candidate). -/
theorem scanLo_spec (buf : NormBlockBuffer) (blockId M : ℕ)
    (hmask : buf.hash_mask + 1 = 2 ^ M)
    (hlen : buf.table.length = buf.hash_mask + 1)
    (hhash : ∀ j, ∀ x ∈ buf.bucket j, x &&& buf.hash_mask = j) :
    ∀ (probes : List ℕ) (off0 nextId : ℕ),
      1 ≤ off0 →
      (∀ t (ht : t < probes.length), probes.get ⟨t, ht⟩ = (blockId + (off0 + t)) % 2 ^ M) →
      nextId ∈ buf.live → blockId < nextId →
      (∀ z, (buf.scanLo blockId probes off0 nextId).1 = some z →
        z ∈ buf.live ∧ blockId < z ∧
        (∃ t, t < probes.length ∧ z = blockId + (off0 + t)) ∧
        (∀ s, off0 ≤ s → s < z - blockId → blockId + s ∉ buf.live)) ∧
      ((buf.scanLo blockId probes off0 nextId).1 = none →
        (∀ t, t < probes.length → blockId + (off0 + t) ∉ buf.live) ∧
        ((buf.scanLo blockId probes off0 nextId).2 ∈ buf.live ∧
            blockId < (buf.scanLo blockId probes off0 nextId).2 ∨
          (buf.scanLo blockId probes off0 nextId).2 = nextId) ∧
        (buf.scanLo blockId probes off0 nextId).2 ≤ nextId ∧
        (∀ x ∈ buf.live, blockId < x → x % 2 ^ M ∈ probes →
          (buf.scanLo blockId probes off0 nextId).2 ≤ x)) := by
  intro probes
  induction probes with
  | nil =>
    intro off0 nextId hoff hprobes hnl hbn
    constructor
    · intro z hz
      simp [NormBlockBuffer.scanLo] at hz
    · intro hz
      refine ⟨?_, Or.inr rfl, le_refl _, ?_⟩
      · intro t ht
        simp at ht
      · intro x _ _ hx
        simp at hx
  | cons i rest ih =>
    intro off0 nextId hoff hprobes hnl hbn
    have hi0 : i = (blockId + off0) % 2 ^ M := by
      have h0 := hprobes 0 (by simp)
      simpa using h0
    have hshift : ∀ t (ht : t < rest.length),
        rest.get ⟨t, ht⟩ = (blockId + ((off0 + 1) + t)) % 2 ^ M := by
      intro t ht
      have h2 := hprobes (t + 1) (by simpa using Nat.succ_lt_succ ht)
      rw [show off0 + (t + 1) = off0 + 1 + t by omega] at h2
      simpa using h2
    have htgt_live : blockId + off0 ∈ buf.bucket i ↔ blockId + off0 ∈ buf.live := by
      rw [mem_live_iff buf hlen hhash, bucketIdx_eq_mod buf M hmask, ← hi0]
    rcases hfound : (chainScanLo blockId (blockId + off0) (buf.bucket i) nextId).1 with _ | _
    · -- head chain does not contain the target: recurse
      have heval : buf.scanLo blockId (i :: rest) off0 nextId =
          buf.scanLo blockId rest (off0 + 1)
            (chainScanLo blockId (blockId + off0) (buf.bucket i) nextId).2 := by
        simp only [NormBlockBuffer.scanLo, hfound]
        simp
      have hnotmem : blockId + off0 ∉ buf.live := by
        intro hmem
        have := (chainScanLo_spec blockId (blockId + off0) (buf.bucket i) nextId).1
        rw [htgt_live] at this
        rw [this.mpr hmem] at hfound
        exact Bool.noConfusion hfound
      obtain ⟨ha, hb, hc⟩ :=
        (chainScanLo_spec blockId (blockId + off0) (buf.bucket i) nextId).2 hfound
      have hr2live : (chainScanLo blockId (blockId + off0) (buf.bucket i) nextId).2 ∈ buf.live := by
        rcases ha with ha | ha
        · rw [ha]; exact hnl
        · exact bucket_subset_live buf hlen hhash i _ ha.1
      have hr2gt : blockId < (chainScanLo blockId (blockId + off0) (buf.bucket i) nextId).2 := by
        rcases ha with ha | ha
        · rw [ha]; exact hbn
        · exact ha.2
      have hIH := ih (off0 + 1)
        (chainScanLo blockId (blockId + off0) (buf.bucket i) nextId).2
        (by omega) hshift hr2live hr2gt
      rw [heval]
      constructor
      · intro z hz
        obtain ⟨hz1, hz2, ⟨t, ht, hzt⟩, hz4⟩ := hIH.1 z hz
        refine ⟨hz1, hz2, ⟨t + 1, by simp; omega, by omega⟩, ?_⟩
        intro s hs1 hs2
        rcases Nat.eq_or_lt_of_le hs1 with rfl | hs1
        · exact hnotmem
        · exact hz4 s (by omega) hs2
      · intro hz
        obtain ⟨m1, m2, m3, m4⟩ := hIH.2 hz
        refine ⟨?_, ?_, le_trans m3 hb, ?_⟩
        · intro t ht
          rcases Nat.eq_zero_or_pos t with rfl | hpos
          · simpa using hnotmem
          · have := m1 (t - 1) (by simp at ht; omega)
            rw [show off0 + 1 + (t - 1) = off0 + t by omega] at this
            exact this
        · rcases m2 with m2 | m2
          · exact Or.inl m2
          · rw [m2]
            rcases ha with ha | ha
            · exact Or.inr ha
            · exact Or.inl ⟨bucket_subset_live buf hlen hhash i _ ha.1, ha.2⟩
        · intro x hx hbx hmem
          rcases List.mem_cons.mp hmem with heq | hmem
          · have hxb : x ∈ buf.bucket i := by
              have hxl := (mem_live_iff buf hlen hhash x).mp hx
              rw [bucketIdx_eq_mod buf M hmask] at hxl
              rw [heq] at hxl
              exact hxl
            exact le_trans m3 (hc x hxb hbx)
          · exact m4 x hx hbx hmem
    · -- head chain contains the target
      have hmem : blockId + off0 ∈ buf.live := by
        rw [← htgt_live]
        exact (chainScanLo_spec blockId (blockId + off0) (buf.bucket i) nextId).1.mp hfound
      have heval : buf.scanLo blockId (i :: rest) off0 nextId =
          (some (blockId + off0),
            (chainScanLo blockId (blockId + off0) (buf.bucket i) nextId).2) := by
        simp only [NormBlockBuffer.scanLo, hfound]
        simp
      rw [heval]
      constructor
      · intro z hz
        simp only at hz
        obtain rfl := Option.some_injective _ hz
        refine ⟨hmem, by omega, ⟨0, by simp, by simp⟩, ?_⟩
        intro s hs1 hs2
        omega
      · intro hz
        simp at hz

/-- Specification of the descending reseek scan `scanHi`: either it finds the
first offset below `blockId` whose id is live, or it reports that no probed
offset is live and returns the largest live id below `blockId` among the
scanned chains (never decreasing the running candidate).  Offsets past
`blockId` would wrap in the C++ `UINT32` arithmetic and match nothing; the
embedding's truncated target 0 likewise matches nothing, because slot 0 is
never probed at such an offset. -/
theorem scanHi_spec (buf : NormBlockBuffer) (blockId M : ℕ)
    (hmask : buf.hash_mask + 1 = 2 ^ M)
    (hlen : buf.table.length = buf.hash_mask + 1)
    (hhash : ∀ j, ∀ x ∈ buf.bucket j, x &&& buf.hash_mask = j)
    (hbid : 1 ≤ blockId) :
    ∀ (probes : List ℕ) (off0 prevId : ℕ),
      1 ≤ off0 → off0 + probes.length ≤ 2 ^ M + 1 →
      (∀ t (ht : t < probes.length),
        probes.get ⟨t, ht⟩ = (blockId + (2 ^ M - (off0 + t))) % 2 ^ M) →
      prevId ∈ buf.live → prevId < blockId →
      (∀ z, (buf.scanHi blockId probes off0 prevId).1 = some z →
        z ∈ buf.live ∧ z < blockId ∧
        (∃ t, t < probes.length ∧ off0 + t ≤ blockId ∧ z = blockId - (off0 + t)) ∧
        (∀ s, off0 ≤ s → s < blockId - z → blockId - s ∉ buf.live)) ∧
      ((buf.scanHi blockId probes off0 prevId).1 = none →
        (∀ t, t < probes.length → off0 + t ≤ blockId → blockId - (off0 + t) ∉ buf.live) ∧
        ((buf.scanHi blockId probes off0 prevId).2 ∈ buf.live ∧
            (buf.scanHi blockId probes off0 prevId).2 < blockId ∨
          (buf.scanHi blockId probes off0 prevId).2 = prevId) ∧
        prevId ≤ (buf.scanHi blockId probes off0 prevId).2 ∧
        (∀ x ∈ buf.live, x < blockId → x % 2 ^ M ∈ probes →
          x ≤ (buf.scanHi blockId probes off0 prevId).2)) := by
  intro probes
  induction probes with
  | nil =>
    intro off0 prevId hoff hlim hprobes hpl hpb
    constructor
    · intro z hz
      simp [NormBlockBuffer.scanHi] at hz
    · intro hz
      refine ⟨?_, Or.inr rfl, le_refl _, ?_⟩
      · intro t ht
        simp at ht
      · intro x _ _ hx
        simp at hx
  | cons i rest ih =>
    intro off0 prevId hoff hlim hprobes hpl hpb
    have hoffN : off0 ≤ 2 ^ M := by
      simp only [List.length_cons] at hlim
      omega
    have hi0 : i = (blockId + (2 ^ M - off0)) % 2 ^ M := by
      have h0 := hprobes 0 (by simp)
      simpa using h0
    have hshift : ∀ t (ht : t < rest.length),
        rest.get ⟨t, ht⟩ = (blockId + (2 ^ M - ((off0 + 1) + t))) % 2 ^ M := by
      intro t ht
      have h2 := hprobes (t + 1) (by simpa using Nat.succ_lt_succ ht)
      rw [show off0 + (t + 1) = off0 + 1 + t by omega] at h2
      simpa using h2
    have hlim2 : off0 + 1 + rest.length ≤ 2 ^ M + 1 := by
      simp only [List.length_cons] at hlim
      omega
    rcases hfound : (chainScanHi blockId (blockId - off0) (buf.bucket i) prevId).1 with _ | _
    · -- no hit in the head chain: recurse
      have heval : buf.scanHi blockId (i :: rest) off0 prevId =
          buf.scanHi blockId rest (off0 + 1)
            (chainScanHi blockId (blockId - off0) (buf.bucket i) prevId).2 := by
        simp only [NormBlockBuffer.scanHi, hfound]
        simp
      have hnotmem : off0 ≤ blockId → blockId - off0 ∉ buf.live := by
        intro hk hmem
        have htgt_live : blockId - off0 ∈ buf.bucket i ↔ blockId - off0 ∈ buf.live := by
          rw [mem_live_iff buf hlen hhash, bucketIdx_eq_mod buf M hmask]
          have harith : blockId + (2 ^ M - off0) = (blockId - off0) + 2 ^ M := by omega
          rw [hi0, harith, Nat.add_mod_right]
        have := (chainScanHi_spec blockId (blockId - off0) (buf.bucket i) prevId).1
        rw [htgt_live] at this
        rw [this.mpr hmem] at hfound
        exact Bool.noConfusion hfound
      obtain ⟨ha, hb, hc⟩ :=
        (chainScanHi_spec blockId (blockId - off0) (buf.bucket i) prevId).2 hfound
      have hr2live : (chainScanHi blockId (blockId - off0) (buf.bucket i) prevId).2 ∈
          buf.live := by
        rcases ha with ha | ha
        · rw [ha]; exact hpl
        · exact bucket_subset_live buf hlen hhash i _ ha.1
      have hr2lt : (chainScanHi blockId (blockId - off0) (buf.bucket i) prevId).2 <
          blockId := by
        rcases ha with ha | ha
        · rw [ha]; exact hpb
        · exact ha.2
      have hIH := ih (off0 + 1)
        (chainScanHi blockId (blockId - off0) (buf.bucket i) prevId).2
        (by omega) hlim2 hshift hr2live hr2lt
      rw [heval]
      constructor
      · intro z hz
        obtain ⟨hz1, hz2, ⟨t, ht, htb, hzt⟩, hz4⟩ := hIH.1 z hz
        refine ⟨hz1, hz2, ⟨t + 1, by simp; omega, by omega, by omega⟩, ?_⟩
        intro s hs1 hs2
        rcases Nat.eq_or_lt_of_le hs1 with rfl | hs1
        · exact hnotmem (by omega)
        · exact hz4 s (by omega) hs2
      · intro hz
        obtain ⟨m1, m2, m3, m4⟩ := hIH.2 hz
        refine ⟨?_, ?_, le_trans hb m3, ?_⟩
        · intro t ht htb
          rcases Nat.eq_zero_or_pos t with rfl | hpos
          · simpa using hnotmem (by omega)
          · have := m1 (t - 1) (by simp at ht; omega) (by omega)
            rw [show off0 + 1 + (t - 1) = off0 + t by omega] at this
            exact this
        · rcases m2 with m2 | m2
          · exact Or.inl m2
          · rw [m2]
            rcases ha with ha | ha
            · exact Or.inr ha
            · exact Or.inl ⟨bucket_subset_live buf hlen hhash i _ ha.1, ha.2⟩
        · intro x hx hbx hmem
          rcases List.mem_cons.mp hmem with heq | hmem
          · have hxb : x ∈ buf.bucket i := by
              have hxl := (mem_live_iff buf hlen hhash x).mp hx
              rw [bucketIdx_eq_mod buf M hmask] at hxl
              rw [heq] at hxl
              exact hxl
            exact le_trans (hc x hxb hbx) m3
          · exact m4 x hx hbx hmem
    · -- hit in the head chain
      have hmemb : blockId - off0 ∈ buf.bucket i :=
        (chainScanHi_spec blockId (blockId - off0) (buf.bucket i) prevId).1.mp hfound
      have hk : off0 ≤ blockId := by
        by_contra hk
        have h0 : blockId - off0 = 0 := by omega
        rw [h0] at hmemb
        have hz := hhash i 0 hmemb
        rw [Nat.zero_and] at hz
        have hval : blockId + (2 ^ M - off0) < 2 ^ M := by omega
        have hmod : (blockId + (2 ^ M - off0)) % 2 ^ M = blockId + (2 ^ M - off0) :=
          Nat.mod_eq_of_lt hval
        rw [hi0, hmod] at hz
        omega
      have hmem : blockId - off0 ∈ buf.live := by
        have htgt_live : blockId - off0 ∈ buf.bucket i ↔ blockId - off0 ∈ buf.live := by
          rw [mem_live_iff buf hlen hhash, bucketIdx_eq_mod buf M hmask]
          have harith : blockId + (2 ^ M - off0) = (blockId - off0) + 2 ^ M := by omega
          rw [hi0, harith, Nat.add_mod_right]
        exact htgt_live.mp hmemb
      have heval : buf.scanHi blockId (i :: rest) off0 prevId =
          (some (blockId - off0),
            (chainScanHi blockId (blockId - off0) (buf.bucket i) prevId).2) := by
        simp only [NormBlockBuffer.scanHi, hfound]
        simp
      rw [heval]
      constructor
      · intro z hz
        simp only at hz
        obtain rfl := Option.some_injective _ hz
        refine ⟨hmem, by omega, ⟨0, by simp, by omega, by simp⟩, ?_⟩
        intro s hs1 hs2
        omega
      · intro hz
        simp at hz

/-! ### The reseek scans find the new extremum -/

theorem get_range'_map (f : ℕ → ℕ) (s n t : ℕ)
    (ht : t < ((List.range' s n).map f).length) :
    ((List.range' s n).map f).get ⟨t, ht⟩ = f (s + t) := by
  rw [List.get_eq_getElem, List.getElem_map, List.getElem_range'_1]

/-- A full cycle of ascending probes visits every residue. -/
theorem mem_probe_image_up (M index y : ℕ) :
    y % 2 ^ M ∈ (List.range' 1 (2 ^ M)).map (fun k => (index + k) % 2 ^ M) := by
  have hN : 0 < 2 ^ M := Nat.two_pow_pos M
  have hyN : y % 2 ^ M < 2 ^ M := Nat.mod_lt _ hN
  have hiN : index % 2 ^ M < 2 ^ M := Nat.mod_lt _ hN
  by_cases hcase : index % 2 ^ M < y % 2 ^ M
  · refine List.mem_map.mpr ⟨y % 2 ^ M - index % 2 ^ M, ?_, ?_⟩
    · exact List.mem_range'.mpr ⟨y % 2 ^ M - index % 2 ^ M - 1, by omega, by omega⟩
    · rw [← Nat.mod_add_mod, show index % 2 ^ M + (y % 2 ^ M - index % 2 ^ M) =
        y % 2 ^ M by omega]
      exact Nat.mod_eq_of_lt hyN
  · refine List.mem_map.mpr ⟨2 ^ M - index % 2 ^ M + y % 2 ^ M, ?_, ?_⟩
    · exact List.mem_range'.mpr ⟨2 ^ M - index % 2 ^ M + y % 2 ^ M - 1, by omega, by omega⟩
    · rw [← Nat.mod_add_mod, show index % 2 ^ M + (2 ^ M - index % 2 ^ M + y % 2 ^ M) =
        y % 2 ^ M + 2 ^ M by omega, Nat.add_mod_right]
      exact Nat.mod_eq_of_lt hyN
  
/-- A full cycle of descending probes visits every residue. -/
theorem mem_probe_image_down (M index y : ℕ) :
    y % 2 ^ M ∈ (List.range' 1 (2 ^ M)).map (fun k => (index + (2 ^ M - k)) % 2 ^ M) := by
  have hN : 0 < 2 ^ M := Nat.two_pow_pos M
  have hyN : y % 2 ^ M < 2 ^ M := Nat.mod_lt _ hN
  have hiN : index % 2 ^ M < 2 ^ M := Nat.mod_lt _ hN
  by_cases hcase : index % 2 ^ M ≤ y % 2 ^ M
  · refine List.mem_map.mpr ⟨2 ^ M - (y % 2 ^ M - index % 2 ^ M), ?_, ?_⟩
    · exact List.mem_range'.mpr
        ⟨2 ^ M - (y % 2 ^ M - index % 2 ^ M) - 1, by omega, by omega⟩
    · rw [show 2 ^ M - (2 ^ M - (y % 2 ^ M - index % 2 ^ M)) =
        y % 2 ^ M - index % 2 ^ M by omega]
      rw [← Nat.mod_add_mod, show index % 2 ^ M + (y % 2 ^ M - index % 2 ^ M) =
        y % 2 ^ M by omega]
      exact Nat.mod_eq_of_lt hyN
  · refine List.mem_map.mpr ⟨index % 2 ^ M - y % 2 ^ M, ?_, ?_⟩
    · exact List.mem_range'.mpr ⟨index % 2 ^ M - y % 2 ^ M - 1, by omega, by omega⟩
    · rw [show 2 ^ M - (index % 2 ^ M - y % 2 ^ M) =
        2 ^ M + y % 2 ^ M - index % 2 ^ M by omega]
      rw [← Nat.mod_add_mod, show index % 2 ^ M + (2 ^ M + y % 2 ^ M - index % 2 ^ M) =
        y % 2 ^ M + 2 ^ M by omega, Nat.add_mod_right]
      exact Nat.mod_eq_of_lt hyN

/-- After unlinking the old `range_lo`, `reseekLo` returns the minimum of the
remaining live ids. -/
theorem reseekLo_min (b1 : NormBlockBuffer) (blockId M : ℕ)
    (hmask : b1.hash_mask + 1 = 2 ^ M)
    (hlen : b1.table.length = b1.hash_mask + 1)
    (hhash : ∀ j, ∀ x ∈ b1.bucket j, x &&& b1.hash_mask = j)
    (hhi : b1.range_hi ∈ b1.live)
    (hbounds : ∀ x ∈ b1.live, blockId < x ∧ x ≤ b1.range_hi)
    (hrange : b1.range = b1.range_hi - blockId + 1)
    (hr2 : 2 ≤ b1.range) :
    b1.reseekLo blockId ∈ b1.live ∧ ∀ y ∈ b1.live, b1.reseekLo blockId ≤ y := by
  have hN : 0 < 2 ^ M := Nat.two_pow_pos M
  have hmaskval : b1.hash_mask = 2 ^ M - 1 := by omega
  have hm2 : 2 ^ M - 1 + 1 = 2 ^ M := by omega
  have hbhi : blockId < b1.range_hi := (hbounds _ hhi).1
  have hhieq : b1.range_hi = blockId + (b1.range - 1) := by omega
  have hidx : b1.bucketIdx blockId = blockId % 2 ^ M := bucketIdx_eq_mod b1 M hmask blockId
  by_cases hsmall : b1.range ≤ b1.hash_mask
  · -- short scan: probes cover offsets 1 .. range-1, which reach range_hi
    have hprobes_eq : probeList (stepUp b1.hash_mask)
        (if b1.range ≤ b1.hash_mask then (b1.bucketIdx blockId + b1.range - 1) &&& b1.hash_mask
          else b1.bucketIdx blockId)
        (b1.bucketIdx blockId) (b1.hash_mask + 1) =
        (List.range' 1 (b1.range - 1)).map (fun k => (blockId + k) % 2 ^ M) := by
      rw [if_pos hsmall]
      have h1 := probeList_stepUp_eq M blockId (b1.range - 1) (by omega) (by omega)
        (2 ^ M) 0 (by omega) (by omega)
      simp only [Nat.add_zero, Nat.sub_zero] at h1
      have hendex : (b1.bucketIdx blockId + b1.range - 1) &&& b1.hash_mask =
          (blockId + (b1.range - 1)) % 2 ^ M := by
        rw [hidx, hmaskval, and_mask_eq_mod,
          show blockId % 2 ^ M + b1.range - 1 = blockId % 2 ^ M + (b1.range - 1) by omega,
          Nat.mod_add_mod]
      rw [hendex, hidx, hmaskval, hm2]
      exact h1
    simp only [NormBlockBuffer.reseekLo]
    rw [hprobes_eq]
    have hget : ∀ t (ht : t < ((List.range' 1 (b1.range - 1)).map
        (fun k => (blockId + k) % 2 ^ M)).length),
        ((List.range' 1 (b1.range - 1)).map (fun k => (blockId + k) % 2 ^ M)).get ⟨t, ht⟩ =
          (blockId + (1 + t)) % 2 ^ M := by
      intro t ht
      exact get_range'_map _ 1 (b1.range - 1) t ht
    have hspec := scanLo_spec b1 blockId M hmask hlen hhash
      ((List.range' 1 (b1.range - 1)).map (fun k => (blockId + k) % 2 ^ M))
      1 b1.range_hi (le_refl 1) hget hhi hbhi
    rcases hres : (b1.scanLo blockId ((List.range' 1 (b1.range - 1)).map
        (fun k => (blockId + k) % 2 ^ M)) 1 b1.range_hi).1 with _ | z
    · exfalso
      obtain ⟨m1, _, _, _⟩ := hspec.2 hres
      have hlenp : ((List.range' 1 (b1.range - 1)).map
          (fun k => (blockId + k) % 2 ^ M)).length = b1.range - 1 := by
        simp
      have := m1 (b1.range - 2) (by omega)
      rw [show 1 + (b1.range - 2) = b1.range - 1 by omega, ← hhieq] at this
      exact this hhi
    · obtain ⟨hz1, hz2, _, hz4⟩ := hspec.1 z hres
      simp only [Option.getD_some]
      refine ⟨hz1, ?_⟩
      intro y hy
      by_contra hlt
      have hyb := hbounds y hy
      have hnot := hz4 (y - blockId) (by omega) (by omega)
      rw [show blockId + (y - blockId) = y by omega] at hnot
      exact hnot hy
  · -- full cycle: every slot is probed
    have hprobes_eq : probeList (stepUp b1.hash_mask)
        (if b1.range ≤ b1.hash_mask then (b1.bucketIdx blockId + b1.range - 1) &&& b1.hash_mask
          else b1.bucketIdx blockId)
        (b1.bucketIdx blockId) (b1.hash_mask + 1) =
        (List.range' 1 (2 ^ M)).map (fun k => (blockId + k) % 2 ^ M) := by
      rw [if_neg hsmall]
      have h1 := probeList_stepUp_eq M blockId (2 ^ M) (by omega) (le_refl _)
        (2 ^ M) 0 (by omega) (by omega)
      simp only [Nat.add_zero, Nat.sub_zero] at h1
      rw [Nat.add_mod_right] at h1
      rw [hidx, hmaskval, hm2]
      exact h1
    simp only [NormBlockBuffer.reseekLo]
    rw [hprobes_eq]
    have hget : ∀ t (ht : t < ((List.range' 1 (2 ^ M)).map
        (fun k => (blockId + k) % 2 ^ M)).length),
        ((List.range' 1 (2 ^ M)).map (fun k => (blockId + k) % 2 ^ M)).get ⟨t, ht⟩ =
          (blockId + (1 + t)) % 2 ^ M := by
      intro t ht
      exact get_range'_map _ 1 (2 ^ M) t ht
    have hspec := scanLo_spec b1 blockId M hmask hlen hhash
      ((List.range' 1 (2 ^ M)).map (fun k => (blockId + k) % 2 ^ M))
      1 b1.range_hi (le_refl 1) hget hhi hbhi
    rcases hres : (b1.scanLo blockId ((List.range' 1 (2 ^ M)).map
        (fun k => (blockId + k) % 2 ^ M)) 1 b1.range_hi).1 with _ | z
    · obtain ⟨m1, m2, m3, m4⟩ := hspec.2 hres
      simp only [Option.getD_none]
      constructor
      · rcases m2 with m2 | m2
        · exact m2.1
        · rw [m2]; exact hhi
      · intro y hy
        exact m4 y hy (hbounds y hy).1 (mem_probe_image_up M blockId y)
    · obtain ⟨hz1, hz2, _, hz4⟩ := hspec.1 z hres
      simp only [Option.getD_some]
      refine ⟨hz1, ?_⟩
      intro y hy
      by_contra hlt
      have hyb := hbounds y hy
      have hnot := hz4 (y - blockId) (by omega) (by omega)
      rw [show blockId + (y - blockId) = y by omega] at hnot
      exact hnot hy

/-- After unlinking the old `range_hi`, `reseekHi` returns the maximum of the
remaining live ids. -/
theorem reseekHi_max (b1 : NormBlockBuffer) (blockId M : ℕ)
    (hmask : b1.hash_mask + 1 = 2 ^ M)
    (hlen : b1.table.length = b1.hash_mask + 1)
    (hhash : ∀ j, ∀ x ∈ b1.bucket j, x &&& b1.hash_mask = j)
    (hlo : b1.range_lo ∈ b1.live)
    (hbounds : ∀ x ∈ b1.live, b1.range_lo ≤ x ∧ x < blockId)
    (hrange : b1.range = blockId - b1.range_lo + 1)
    (hr2 : 2 ≤ b1.range) :
    b1.reseekHi blockId ∈ b1.live ∧ ∀ y ∈ b1.live, y ≤ b1.reseekHi blockId := by
  have hN : 0 < 2 ^ M := Nat.two_pow_pos M
  have hmaskval : b1.hash_mask = 2 ^ M - 1 := by omega
  have hm2 : 2 ^ M - 1 + 1 = 2 ^ M := by omega
  have hblo : b1.range_lo < blockId := (hbounds _ hlo).2
  have hbid : 1 ≤ blockId := by omega
  have hloeq : b1.range_lo = blockId - (b1.range - 1) := by omega
  have hidx : b1.bucketIdx blockId = blockId % 2 ^ M := bucketIdx_eq_mod b1 M hmask blockId
  by_cases hsmall : b1.range ≤ b1.hash_mask
  · have hprobes_eq : probeList (stepDown b1.hash_mask)
        (if b1.range ≤ b1.hash_mask then
            (b1.bucketIdx blockId + (b1.hash_mask + 1) - (b1.range - 1)) &&& b1.hash_mask
          else b1.bucketIdx blockId)
        (b1.bucketIdx blockId) (b1.hash_mask + 1) =
        (List.range' 1 (b1.range - 1)).map (fun k => (blockId + (2 ^ M - k)) % 2 ^ M) := by
      rw [if_pos hsmall]
      have h1 := probeList_stepDown_eq M blockId (b1.range - 1) (by omega) (by omega)
        (2 ^ M) 0 (by omega) (by omega)
      simp only [Nat.sub_zero] at h1
      rw [Nat.add_mod_right] at h1
      have hendex : (b1.bucketIdx blockId + (b1.hash_mask + 1) - (b1.range - 1)) &&&
          b1.hash_mask = (blockId + (2 ^ M - (b1.range - 1))) % 2 ^ M := by
        rw [hidx, hmaskval, and_mask_eq_mod,
          show blockId % 2 ^ M + (2 ^ M - 1 + 1) - (b1.range - 1) =
            blockId % 2 ^ M + (2 ^ M - (b1.range - 1)) by omega,
          Nat.mod_add_mod]
      rw [hendex, hidx, hmaskval, hm2]
      exact h1
    simp only [NormBlockBuffer.reseekHi]
    rw [hprobes_eq]
    have hget : ∀ t (ht : t < ((List.range' 1 (b1.range - 1)).map
        (fun k => (blockId + (2 ^ M - k)) % 2 ^ M)).length),
        ((List.range' 1 (b1.range - 1)).map
          (fun k => (blockId + (2 ^ M - k)) % 2 ^ M)).get ⟨t, ht⟩ =
          (blockId + (2 ^ M - (1 + t))) % 2 ^ M := by
      intro t ht
      exact get_range'_map _ 1 (b1.range - 1) t ht
    have hspec := scanHi_spec b1 blockId M hmask hlen hhash hbid
      ((List.range' 1 (b1.range - 1)).map (fun k => (blockId + (2 ^ M - k)) % 2 ^ M))
      1 b1.range_lo (le_refl 1) (by simp; omega) hget hlo hblo
    rcases hres : (b1.scanHi blockId ((List.range' 1 (b1.range - 1)).map
        (fun k => (blockId + (2 ^ M - k)) % 2 ^ M)) 1 b1.range_lo).1 with _ | z
    · exfalso
      obtain ⟨m1, _, _, _⟩ := hspec.2 hres
      have := m1 (b1.range - 2) (by simp; omega) (by omega)
      rw [show 1 + (b1.range - 2) = b1.range - 1 by omega, ← hloeq] at this
      exact this hlo
    · obtain ⟨hz1, hz2, _, hz4⟩ := hspec.1 z hres
      simp only [Option.getD_some]
      refine ⟨hz1, ?_⟩
      intro y hy
      by_contra hlt
      have hyb := hbounds y hy
      have hnot := hz4 (blockId - y) (by omega) (by omega)
      rw [show blockId - (blockId - y) = y by omega] at hnot
      exact hnot hy
  · have hprobes_eq : probeList (stepDown b1.hash_mask)
        (if b1.range ≤ b1.hash_mask then
            (b1.bucketIdx blockId + (b1.hash_mask + 1) - (b1.range - 1)) &&& b1.hash_mask
          else b1.bucketIdx blockId)
        (b1.bucketIdx blockId) (b1.hash_mask + 1) =
        (List.range' 1 (2 ^ M)).map (fun k => (blockId + (2 ^ M - k)) % 2 ^ M) := by
      rw [if_neg hsmall]
      have h1 := probeList_stepDown_eq M blockId (2 ^ M) (by omega) (le_refl _)
        (2 ^ M) 0 (by omega) (by omega)
      simp only [Nat.sub_zero] at h1
      rw [Nat.add_mod_right] at h1
      rw [show 2 ^ M - 2 ^ M = 0 from by omega, Nat.add_zero] at h1
      rw [hidx, hmaskval, hm2]
      exact h1
    simp only [NormBlockBuffer.reseekHi]
    rw [hprobes_eq]
    have hget : ∀ t (ht : t < ((List.range' 1 (2 ^ M)).map
        (fun k => (blockId + (2 ^ M - k)) % 2 ^ M)).length),
        ((List.range' 1 (2 ^ M)).map
          (fun k => (blockId + (2 ^ M - k)) % 2 ^ M)).get ⟨t, ht⟩ =
          (blockId + (2 ^ M - (1 + t))) % 2 ^ M := by
      intro t ht
      exact get_range'_map _ 1 (2 ^ M) t ht
    have hspec := scanHi_spec b1 blockId M hmask hlen hhash hbid
      ((List.range' 1 (2 ^ M)).map (fun k => (blockId + (2 ^ M - k)) % 2 ^ M))
      1 b1.range_lo (le_refl 1) (by simp; omega) hget hlo hblo
    rcases hres : (b1.scanHi blockId ((List.range' 1 (2 ^ M)).map
        (fun k => (blockId + (2 ^ M - k)) % 2 ^ M)) 1 b1.range_lo).1 with _ | z
    · obtain ⟨m1, m2, m3, m4⟩ := hspec.2 hres
      simp only [Option.getD_none]
      constructor
      · rcases m2 with m2 | m2
        · exact m2.1
        · rw [m2]; exact hlo
      · intro y hy
        exact m4 y hy (hbounds y hy).2 (mem_probe_image_down M blockId y)
    · obtain ⟨hz1, hz2, _, hz4⟩ := hspec.1 z hres
      simp only [Option.getD_some]
      refine ⟨hz1, ?_⟩
      intro y hy
      by_contra hlt
      have hyb := hbounds y hy
      have hnot := hz4 (blockId - y) (by omega) (by omega)
      rw [show blockId - (blockId - y) = y by omega] at hnot
      exact hnot hy

/-- Effect of unlinking an id from its bucket. -/
theorem eraseBlk_wf (buf : NormBlockBuffer) (id : ℕ)
    (hlen : buf.table.length = buf.hash_mask + 1)
    (hhash : ∀ j, ∀ x ∈ buf.bucket j, x &&& buf.hash_mask = j)
    (hsort : ∀ j, (buf.bucket j).Sorted (· < ·)) :
    (buf.eraseBlk id).table.length = buf.hash_mask + 1 ∧
    (∀ j, ∀ x ∈ (buf.eraseBlk id).bucket j, x &&& buf.hash_mask = j) ∧
    (∀ j, ((buf.eraseBlk id).bucket j).Sorted (· < ·)) ∧
    (∀ x, x ∈ (buf.eraseBlk id).live ↔ x ∈ buf.live ∧ x ≠ id) := by
  have hj0 : buf.bucketIdx id < buf.table.length := by
    rw [hlen]; exact Nat.lt_succ_of_le Nat.and_le_right
  have hbuck : ∀ j, (buf.eraseBlk id).bucket j =
      if j = buf.bucketIdx id then (buf.bucket (buf.bucketIdx id)).erase id
      else buf.bucket j := by
    intro j
    by_cases hj : j = buf.bucketIdx id
    · subst hj
      simp only [if_true]
      exact bucket_of_set_self buf _ _ hj0
    · simp only [hj, if_false]
      exact bucket_of_set_ne buf _ _ _ (fun h => hj h.symm)
  have hnd : (buf.bucket (buf.bucketIdx id)).Nodup := (hsort _).nodup
  have hlen2 : (buf.eraseBlk id).table.length = buf.hash_mask + 1 := by
    simp only [NormBlockBuffer.eraseBlk, List.length_set]
    exact hlen
  have hhash2 : ∀ j, ∀ x ∈ (buf.eraseBlk id).bucket j, x &&& buf.hash_mask = j := by
    intro j x hx
    rw [hbuck j] at hx
    by_cases hj : j = buf.bucketIdx id
    · simp only [hj, if_true] at hx
      rw [hj]
      exact hhash _ x (List.mem_of_mem_erase hx)
    · simp only [hj, if_false] at hx
      exact hhash _ x hx
  refine ⟨hlen2, hhash2, ?_, ?_⟩
  · intro j
    rw [hbuck j]
    by_cases hj : j = buf.bucketIdx id
    · simp only [hj, if_true]
      exact List.Pairwise.sublist (List.erase_sublist _ _) (hsort _)
    · simp only [hj, if_false]
      exact hsort j
  · intro x
    have hbidx : (buf.eraseBlk id).bucketIdx x = buf.bucketIdx x := rfl
    have hm1 := mem_live_iff (buf.eraseBlk id) hlen2 hhash2 x
    rw [hm1, hbidx, hbuck]
    by_cases hx2 : buf.bucketIdx x = buf.bucketIdx id
    · rw [hx2]
      simp only [if_true]
      rw [hnd.mem_erase_iff, ← hx2]
      rw [← mem_live_iff buf hlen hhash x]
      tauto
    · simp only [hx2, if_false]
      rw [← mem_live_iff buf hlen hhash x]
      constructor
      · intro hm
        refine ⟨hm, ?_⟩
        intro heq
        rw [heq] at hx2
        exact hx2 rfl
      · exact fun h => h.1


/-- `Remove` preserves well-formedness and deletes exactly the given id; a
`false` return means the id was not live. -/
theorem remove_preserves_wf (buf : NormBlockBuffer) (id : ℕ) (hwf : buf.WF) :
    (∀ buf2, buf.Remove id = some buf2 →
      buf2.WF ∧ ∀ x, x ∈ buf2.live ↔ x ∈ buf.live ∧ x ≠ id) ∧
    (buf.Remove id = none → id ∉ buf.live) := by
  obtain ⟨M, hmask⟩ := hwf.pow
  by_cases hr0 : buf.range = 0
  · have hnone : buf.Remove id = none := by simp [NormBlockBuffer.Remove, hr0]
    refine ⟨?_, ?_⟩
    · intro buf2 h
      rw [hnone] at h
      exact Option.noConfusion h
    · intro _
      rw [hwf.empty0 hr0]
      simp
  · by_cases hout : id < buf.range_lo ∨ buf.range_hi < id
    · have hnone : buf.Remove id = none := by
        simp only [NormBlockBuffer.Remove]
        rw [if_neg hr0, if_pos hout]
      refine ⟨?_, ?_⟩
      · intro buf2 h
        rw [hnone] at h
        exact Option.noConfusion h
      · intro _ hm
        have hb := (hwf.occupied hr0).2.2.1 id hm
        omega
    · by_cases hmem : id ∈ buf.bucket (buf.bucketIdx id)
      · obtain ⟨hlen1, hhash1, hsort1, hlive1⟩ := eraseBlk_wf buf id hwf.len hwf.hash hwf.chains
        obtain ⟨hlo, hhi, hbounds, hrangeEq, hmaxle⟩ := hwf.occupied hr0
        have hidlive : id ∈ buf.live := (mem_live_iff buf hwf.len hwf.hash id).mpr hmem
        have hidbounds := hbounds id hidlive
        have herange : (buf.eraseBlk id).range = buf.range := rfl
        have herlo : (buf.eraseBlk id).range_lo = buf.range_lo := rfl
        have herhi : (buf.eraseBlk id).range_hi = buf.range_hi := rfl
        by_cases hr1 : 1 < buf.range
        · have hlowhi : buf.range_lo < buf.range_hi := by omega
          by_cases heqlo : id = buf.range_lo
          · -- removing the low extremum: reseek upward
            have hb : buf.Remove id = some { buf.eraseBlk id with
                range_lo := (buf.eraseBlk id).reseekLo id,
                range := (buf.eraseBlk id).range_hi - (buf.eraseBlk id).reseekLo id + 1 } := by
              simp only [NormBlockBuffer.Remove]
              rw [if_neg hr0, if_neg hout, if_pos hmem,
                if_pos (show (1 : ℕ) < (buf.eraseBlk id).range by rw [herange]; exact hr1),
                if_pos (show id = (buf.eraseBlk id).range_lo by rw [herlo]; exact heqlo)]
            have hhi1 : (buf.eraseBlk id).range_hi ∈ (buf.eraseBlk id).live := by
              show buf.range_hi ∈ (buf.eraseBlk id).live
              refine (hlive1 buf.range_hi).mpr ⟨hhi, ?_⟩
              intro heq
              omega
            have hbounds1 : ∀ x ∈ (buf.eraseBlk id).live, id < x ∧ x ≤
                (buf.eraseBlk id).range_hi := by
              intro x hx
              obtain ⟨hxl, hxne⟩ := (hlive1 x).mp hx
              have hxb := hbounds x hxl
              constructor
              · omega
              · show x ≤ buf.range_hi
                omega
            obtain ⟨hzlive, hzmin⟩ := reseekLo_min (buf.eraseBlk id) id M hmask hlen1 hhash1
              hhi1 hbounds1 (by show buf.range = buf.range_hi - id + 1; omega)
              (by show 2 ≤ buf.range; omega)
            have hzbd := hbounds1 _ hzlive
            have hzhi : (buf.eraseBlk id).reseekLo id ≤ buf.range_hi := hzbd.2
            have hzlo : buf.range_lo ≤ (buf.eraseBlk id).reseekLo id :=
              (hbounds _ ((hlive1 _).mp hzlive).1).1
            refine ⟨?_, ?_⟩
            · intro buf2 h
              rw [hb] at h
              obtain rfl := Option.some_injective _ h
              refine ⟨⟨⟨M, hmask⟩, hlen1, hwf.maxpos, hhash1, hsort1, ?_, ?_⟩, hlive1⟩
              · intro hc
                exfalso
                have hcr : (buf.eraseBlk id).range_hi - (buf.eraseBlk id).reseekLo id + 1 = 0 :=
                  hc
                omega
              · intro _
                refine ⟨hzlive, hhi1, ?_, rfl, ?_⟩
                · intro x hx
                  exact ⟨hzmin x hx, (hbounds1 x hx).2⟩
                · show buf.range_hi - (buf.eraseBlk id).reseekLo id + 1 ≤ buf.range_max
                  omega
            · intro h
              rw [hb] at h
              exact Option.noConfusion h
          · by_cases heqhi : id = buf.range_hi
            · -- removing the high extremum: reseek downward
              have hb : buf.Remove id = some { buf.eraseBlk id with
                  range_hi := (buf.eraseBlk id).reseekHi id,
                  range := (buf.eraseBlk id).reseekHi id - (buf.eraseBlk id).range_lo + 1 } := by
                simp only [NormBlockBuffer.Remove]
                rw [if_neg hr0, if_neg hout, if_pos hmem,
                  if_pos (show (1 : ℕ) < (buf.eraseBlk id).range by rw [herange]; exact hr1),
                  if_neg (show ¬ (id = (buf.eraseBlk id).range_lo) by rw [herlo]; exact heqlo),
                  if_pos (show id = (buf.eraseBlk id).range_hi by rw [herhi]; exact heqhi)]
              have hlo1 : (buf.eraseBlk id).range_lo ∈ (buf.eraseBlk id).live := by
                show buf.range_lo ∈ (buf.eraseBlk id).live
                refine (hlive1 buf.range_lo).mpr ⟨hlo, ?_⟩
                intro heq
                omega
              have hbounds1 : ∀ x ∈ (buf.eraseBlk id).live,
                  (buf.eraseBlk id).range_lo ≤ x ∧ x < id := by
                intro x hx
                obtain ⟨hxl, hxne⟩ := (hlive1 x).mp hx
                have hxb := hbounds x hxl
                constructor
                · show buf.range_lo ≤ x
                  omega
                · omega
              obtain ⟨hzlive, hzmax⟩ := reseekHi_max (buf.eraseBlk id) id M hmask hlen1 hhash1
                hlo1 hbounds1 (by show buf.range = id - buf.range_lo + 1; omega)
                (by show 2 ≤ buf.range; omega)
              have hzbd := hbounds1 _ hzlive
              have hzlo2 : buf.range_lo ≤ (buf.eraseBlk id).reseekHi id := hzbd.1
              have hzlt : (buf.eraseBlk id).reseekHi id < id := hzbd.2
              refine ⟨?_, ?_⟩
              · intro buf2 h
                rw [hb] at h
                obtain rfl := Option.some_injective _ h
                refine ⟨⟨⟨M, hmask⟩, hlen1, hwf.maxpos, hhash1, hsort1, ?_, ?_⟩, hlive1⟩
                · intro hc
                  exfalso
                  have hcr : (buf.eraseBlk id).reseekHi id - (buf.eraseBlk id).range_lo + 1 = 0 :=
                    hc
                  have hcr2 : buf.range_lo ≤ (buf.eraseBlk id).reseekHi id := hzlo2
                  omega
                · intro _
                  refine ⟨hlo1, hzlive, ?_, rfl, ?_⟩
                  · intro x hx
                    exact ⟨(hbounds1 x hx).1, hzmax x hx⟩
                  · show (buf.eraseBlk id).reseekHi id - buf.range_lo + 1 ≤ buf.range_max
                    omega
              · intro h
                rw [hb] at h
                exact Option.noConfusion h
            · -- interior removal: extrema unchanged
              have hb : buf.Remove id = some (buf.eraseBlk id) := by
                simp only [NormBlockBuffer.Remove]
                rw [if_neg hr0, if_neg hout, if_pos hmem,
                  if_pos (show (1 : ℕ) < (buf.eraseBlk id).range by rw [herange]; exact hr1),
                  if_neg (show ¬ (id = (buf.eraseBlk id).range_lo) by rw [herlo]; exact heqlo),
                  if_neg (show ¬ (id = (buf.eraseBlk id).range_hi) by rw [herhi]; exact heqhi)]
              refine ⟨?_, ?_⟩
              · intro buf2 h
                rw [hb] at h
                obtain rfl := Option.some_injective _ h
                refine ⟨⟨⟨M, hmask⟩, hlen1, hwf.maxpos, hhash1, hsort1, ?_, ?_⟩, hlive1⟩
                · intro hc
                  exfalso
                  have hcr : buf.range = 0 := hc
                  omega
                · intro _
                  refine ⟨?_, ?_, ?_, ?_, ?_⟩
                  · exact (hlive1 buf.range_lo).mpr ⟨hlo, fun heq => heqlo heq.symm⟩
                  · exact (hlive1 buf.range_hi).mpr ⟨hhi, fun heq => heqhi heq.symm⟩
                  · intro x hx
                    exact hbounds x ((hlive1 x).mp hx).1
                  · show buf.range = buf.range_hi - buf.range_lo + 1
                    exact hrangeEq
                  · show buf.range ≤ buf.range_max
                    exact hmaxle
              · intro h
                rw [hb] at h
                exact Option.noConfusion h
        · -- range = 1: the buffer empties
          have heq1 : buf.range = 1 := by omega
          have hb : buf.Remove id = some { buf.eraseBlk id with range := 0 } := by
            simp only [NormBlockBuffer.Remove]
            rw [if_neg hr0, if_neg hout, if_pos hmem,
              if_neg (show ¬ ((1 : ℕ) < (buf.eraseBlk id).range) by rw [herange]; omega)]
          have hid_lo : id = buf.range_lo := by omega
          have hempty2 : ({ buf.eraseBlk id with range := 0 } : NormBlockBuffer).live = [] := by
            rw [List.eq_nil_iff_forall_not_mem]
            intro a ha
            have ha2 : a ∈ (buf.eraseBlk id).live := ha
            obtain ⟨hal, hane⟩ := (hlive1 a).mp ha2
            have hab := hbounds a hal
            omega
          refine ⟨?_, ?_⟩
          · intro buf2 h
            rw [hb] at h
            obtain rfl := Option.some_injective _ h
            refine ⟨⟨⟨M, hmask⟩, hlen1, hwf.maxpos, hhash1, hsort1, ?_, ?_⟩, hlive1⟩
            · intro _
              exact hempty2
            · intro hc
              exact absurd rfl hc
          · intro h
            rw [hb] at h
            exact Option.noConfusion h
      · have hnone : buf.Remove id = none := by
          simp only [NormBlockBuffer.Remove]
          rw [if_neg hr0, if_neg hout, if_neg hmem]
        refine ⟨?_, ?_⟩
        · intro buf2 h
          rw [hnone] at h
          exact Option.noConfusion h
        · intro _
          intro hm
          exact hmem ((mem_live_iff buf hwf.len hwf.hash id).mp hm)

/-- A bucket index at or beyond the table length yields the empty chain. -/
theorem bucket_of_ge_length (buf : NormBlockBuffer) (j : ℕ) (h : buf.table.length ≤ j) :
    buf.bucket j = [] := by
  simp [NormBlockBuffer.bucket, List.getD_eq_getElem?_getD, List.getElem?_eq_none h]

/-- Discharge `WF` from finitely checkable facts: the per-bucket conditions
need only be verified below the table length. -/
theorem wf_of_checks (buf : NormBlockBuffer) (m : ℕ)
    (hpow : buf.hash_mask + 1 = 2 ^ m)
    (hlen : buf.table.length = buf.hash_mask + 1)
    (hmax : 0 < buf.range_max)
    (hhash : ∀ j < buf.table.length, ∀ id ∈ buf.bucket j, id &&& buf.hash_mask = j)
    (hchains : ∀ j < buf.table.length, (buf.bucket j).Sorted (· < ·))
    (hempty : buf.range = 0 → buf.live = [])
    (hocc : buf.range ≠ 0 → buf.range_lo ∈ buf.live ∧ buf.range_hi ∈ buf.live ∧
      (∀ id ∈ buf.live, buf.range_lo ≤ id ∧ id ≤ buf.range_hi) ∧
      buf.range = buf.range_hi - buf.range_lo + 1 ∧ buf.range ≤ buf.range_max) :
    buf.WF := by
  refine ⟨⟨m, hpow⟩, hlen, hmax, ?_, ?_, hempty, hocc⟩
  · intro j id hid
    by_cases hj : j < buf.table.length
    · exact hhash j hj id hid
    · rw [bucket_of_ge_length buf j (le_of_not_lt hj)] at hid
      exact absurd hid (List.not_mem_nil id)
  · intro j
    by_cases hj : j < buf.table.length
    · exact hchains j hj
    · rw [bucket_of_ge_length buf j (le_of_not_lt hj)]
      exact List.sorted_nil

/-- A freshly initialised buffer is well-formed whenever its mask is one less
than a power of two (which the quirky size adjustment does not guarantee). -/
theorem init_wf (rangeMax tableSize : ℕ) (buf : NormBlockBuffer)
    (h : NormBlockBuffer.Init rangeMax tableSize = some buf)
    (hpow : ∃ m, buf.hash_mask + 1 = 2 ^ m) : buf.WF := by
  by_cases h0 : rangeMax = 0 ∨ tableSize = 0
  · rw [NormBlockBuffer.Init, if_pos h0] at h
    exact Option.noConfusion h
  · push_neg at h0
    obtain ⟨hr, ht⟩ := h0
    simp only [NormBlockBuffer.Init] at h
    rw [if_neg (by push_neg; exact ⟨hr, ht⟩)] at h
    obtain rfl := (Option.some_injective _ h)
    set ts := if tableSize &&& 7 ≠ 0 then (tableSize >>> 3) + 1 else tableSize with hts
    have hts1 : 1 ≤ ts := by
      rw [hts]
      by_cases hc : tableSize &&& 7 ≠ 0
      · rw [if_pos hc]; omega
      · rw [if_neg hc]; omega
    obtain ⟨m, hm⟩ := hpow
    refine wf_of_checks _ m hm ?_ ?_ ?_ ?_ ?_ ?_
    · show (List.replicate ts ([] : List ℕ)).length = ts - 1 + 1
      rw [List.length_replicate]
      omega
    · exact Nat.pos_of_ne_zero hr
    · intro j _ id hid
      have hb : NormBlockBuffer.bucket
          { table := List.replicate ts [], hash_mask := ts - 1, range_max := rangeMax,
            range := 0, range_lo := 0, range_hi := 0 } j = [] := by
        simp [NormBlockBuffer.bucket, List.getD_eq_getElem?_getD, List.getElem?_replicate]
        split <;> rfl
      rw [hb] at hid
      exact absurd hid (List.not_mem_nil id)
    · intro j _
      have hb : NormBlockBuffer.bucket
          { table := List.replicate ts [], hash_mask := ts - 1, range_max := rangeMax,
            range := 0, range_lo := 0, range_hi := 0 } j = [] := by
        simp [NormBlockBuffer.bucket, List.getD_eq_getElem?_getD, List.getElem?_replicate]
        split <;> rfl
      rw [hb]
      exact List.sorted_nil
    · intro _
      rw [List.eq_nil_iff_forall_not_mem]
      intro x hx
      rcases List.mem_flatten.mp hx with ⟨l, hl, hxl⟩
      rw [List.eq_of_mem_replicate hl] at hxl
      exact absurd hxl (List.not_mem_nil x)
    · intro hc
      exact absurd rfl hc

/-- `Find` succeeds exactly on the live ids of a well-formed buffer. -/
theorem find_isSome_iff_live (buf : NormBlockBuffer) (id : ℕ) (hwf : buf.WF) :
    (buf.Find id).isSome ↔ id ∈ buf.live := by
  simp only [NormBlockBuffer.Find]
  by_cases hr : buf.range ≠ 0
  · rw [if_pos hr]
    by_cases hout : id < buf.range_lo ∨ buf.range_hi < id
    · rw [if_pos hout]
      simp only [Option.isSome_none, Bool.false_eq_true, false_iff]
      intro hm
      have hb := (hwf.occupied hr).2.2.1 id hm
      omega
    · rw [if_neg hout]
      by_cases hbk : id ∈ buf.bucket (buf.bucketIdx id)
      · rw [if_pos hbk]
        simp only [Option.isSome_some, true_iff]
        exact (mem_live_iff buf hwf.len hwf.hash id).mpr hbk
      · rw [if_neg hbk]
        simp only [Option.isSome_none, Bool.false_eq_true, false_iff]
        intro hm
        exact hbk ((mem_live_iff buf hwf.len hwf.hash id).mp hm)
  · rw [if_neg hr]
    push_neg at hr
    simp only [Option.isSome_none, Bool.false_eq_true, false_iff]
    rw [hwf.empty0 hr]
    exact List.not_mem_nil id

/-- The buffer of the C4 scenario after `Init(8, 8)` and inserting 5, 7, 10, 12. -/
def c4buf1 : NormBlockBuffer :=
  (((((NormBlockBuffer.Init 8 8).bind (fun b => b.Insert 5)).bind
      (fun b => b.Insert 7)).bind (fun b => b.Insert 10)).bind
      (fun b => b.Insert 12)).getD default

/-- The scenario buffer after removing id 5. -/
def c4buf2 : NormBlockBuffer := (c4buf1.Remove 5).getD default

/-- The scenario buffer after also removing id 12. -/
def c4buf3 : NormBlockBuffer := (c4buf2.Remove 12).getD default

/-- C4: across any sequence of accepted `Insert` and `Remove` operations from a
well-formed start, `range_lo`/`range_hi` bound the live id set with both bounds
attained, `range = range_hi - range_lo + 1` when non-empty and the live set is
empty when `range = 0`; `Find` succeeds exactly on the ids inserted and not
since removed; `Init` yields a well-formed buffer (for the power-of-two masks
its size adjustment is supposed to produce); and the concrete scenario holds:
from `Init(8,8)` with live ids {5,7,10,12} (lo 5, hi 12, range 8), `Insert 13`
is refused, removing 5 gives lo 7 range 6, removing 12 gives hi 10 range 4,
after which `Insert 13` is accepted with hi 13 range 7. -/
theorem c4_blockBuffer_range_invariant :
    (∀ (buf : NormBlockBuffer) (id : ℕ) buf2, buf.WF → id ∉ buf.live → buf.Insert id = some buf2 →
        buf2.WF ∧ (∀ x, x ∈ buf2.live ↔ x = id ∨ x ∈ buf.live)) ∧
    (∀ (buf : NormBlockBuffer) id, buf.WF →
        (∀ buf2, buf.Remove id = some buf2 →
           buf2.WF ∧ ∀ x, x ∈ buf2.live ↔ x ∈ buf.live ∧ x ≠ id) ∧
        (buf.Remove id = none → id ∉ buf.live)) ∧
    (∀ (buf : NormBlockBuffer) id, buf.WF → ((buf.Find id).isSome ↔ id ∈ buf.live)) ∧
    (∀ buf : NormBlockBuffer, buf.WF → buf.range ≠ 0 →
        (∀ x ∈ buf.live, buf.range_lo ≤ x ∧ x ≤ buf.range_hi) ∧
        buf.range_lo ∈ buf.live ∧ buf.range_hi ∈ buf.live ∧
        buf.range = buf.range_hi - buf.range_lo + 1) ∧
    (∀ buf : NormBlockBuffer, buf.WF → buf.range = 0 → buf.live = []) ∧
    (∀ rangeMax tableSize buf, NormBlockBuffer.Init rangeMax tableSize = some buf →
        (∃ m, buf.hash_mask + 1 = 2 ^ m) → buf.WF) ∧
    (c4buf1.range_lo = 5 ∧ c4buf1.range_hi = 12 ∧ c4buf1.range = 8 ∧
      c4buf1.Insert 13 = none ∧
      (c4buf1.Remove 5).isSome ∧ c4buf2.range_lo = 7 ∧ c4buf2.range = 6 ∧
      (c4buf2.Remove 12).isSome ∧ c4buf3.range_hi = 10 ∧ c4buf3.range = 4 ∧
      (c4buf3.Insert 13).map (fun b => (b.range_hi, b.range)) = some (13, 7)) := by
  refine ⟨?_, ?_, ?_, ?_, ?_, ?_, ?_⟩
  · intro buf id buf2 hwf hid h
    exact insert_preserves_wf buf id hwf hid buf2 h
  · intro buf id hwf
    exact remove_preserves_wf buf id hwf
  · intro buf id hwf
    exact find_isSome_iff_live buf id hwf
  · intro buf hwf hr
    obtain ⟨h1, h2, h3, h4, _⟩ := hwf.occupied hr
    exact ⟨h3, h1, h2, h4⟩
  · intro buf hwf hr
    exact hwf.empty0 hr
  · intro rM tS buf h hp
    exact init_wf rM tS buf h hp
  · decide

theorem c4_blockBuffer_range_invariant_witness :
    ((NormBlockBuffer.mk (List.replicate 8 []) 7 8 0 0 0).Find 5).isSome ↔
      5 ∈ (NormBlockBuffer.mk (List.replicate 8 []) 7 8 0 0 0).live :=
  c4_blockBuffer_range_invariant.2.2.1 (NormBlockBuffer.mk (List.replicate 8 []) 7 8 0 0 0) 5
    (wf_of_checks (NormBlockBuffer.mk (List.replicate 8 []) 7 8 0 0 0) 3 (by decide)
      (by decide) (by decide) (by decide) (by decide) (by decide) (by decide))

/-! ## NormBlock::AppendRepairRequest (`normSegment.cpp:469-628`) -/

/-- `NormRepairRequest::Form` (values used by `AppendRepairRequest`). -/
inductive RepairForm where
  | invalid : RepairForm
  | items : RepairForm
  | ranges : RepairForm
deriving DecidableEq, Repr

/-- One encoded repair entry: `AppendRepairItem` carries a single symbol id,
`AppendRepairRange` a first and last id (object/block ids are fixed for the
whole call and omitted). -/
inductive RepairEntry where
  | item : ℕ → RepairEntry
  | range : ℕ → ℕ → RepairEntry
deriving DecidableEq, Repr

/-- One packed repair request: its form and the entries appended to it. -/
structure RepairRequest where
  form : RepairForm
  entries : List RepairEntry
deriving DecidableEq, Repr

/-- The NACK-building state threaded through the loop: the requests already
packed into the message, the form of the currently attached request
(`prevForm`), and its accumulated entries. -/
structure NackState where
  out : List RepairRequest
  prevForm : RepairForm
  cur : List RepairEntry
deriving DecidableEq, Repr

/-- The body of the `if (((nextId - currentId) > 1) || (nextId >= endId))`
block: choose the form from `segmentCount`, pack the previous request and
attach a fresh one on a form change, then append the item(s) or range for the
just-ended consecutive run `firstId..currentId`. -/
def closeRun (st : NackState) (segmentCount firstId currentId : ℕ) : NackState :=
  let form : RepairForm :=
    if segmentCount = 0 then .invalid
    else if segmentCount ≤ 2 then .items else .ranges
  let st1 : NackState :=
    if form ≠ st.prevForm then
      { out := if st.prevForm ≠ .invalid then st.out ++ [⟨st.prevForm, st.cur⟩] else st.out,
        prevForm := form, cur := [] }
    else st
  let newEntries : List RepairEntry :=
    match form with
    | .invalid => []
    | .items => if segmentCount = 2 then [.item firstId, .item currentId] else [.item firstId]
    | .ranges => [.range firstId currentId]
  { st1 with cur := st1.cur ++ newEntries }

/-- The trailing `if (NormRepairRequest::INVALID != prevForm) PackRepairRequest`. -/
def nackFinish (st : NackState) : List RepairRequest :=
  if st.prevForm ≠ .invalid then st.out ++ [⟨st.prevForm, st.cur⟩] else st.out

/-- The `while (nextId < endId)` loop of `AppendRepairRequest`, fuel-recursive;
each iteration advances `nextId` by at least one, so fuel `endId + 1 - nextId`
(or anything larger) is adequate. -/
def rrLoopF : ℕ → Finset ℕ → ℕ → ℕ → ℕ → ℕ → NackState → NackState
  | 0, _, _, _, _, _, st => st
  | fuel + 1, pend, endId, nextId, segmentCount, firstId, st =>
    if nextId < endId then
      let currentId := nextId
      let nextId2 := match nextSet pend (currentId + 1) with
        | some y => y
        | none => endId
      let firstId2 := if segmentCount = 0 then currentId else firstId
      let segmentCount2 := segmentCount + 1
      if 1 < nextId2 - currentId ∨ endId ≤ nextId2 then
        rrLoopF fuel pend endId nextId2 0 firstId2 (closeRun st segmentCount2 firstId2 currentId)
      else
        rrLoopF fuel pend endId nextId2 segmentCount2 firstId2 st
    else st

/-- The skip loop `while (i--) { nextId++; GetNextPending(nextId); }`; on a
failed search the (incremented) index is left in place, per the bitmask
contract of §4.2.1. -/
def skipPend (pend : Finset ℕ) : ℕ → ℕ → ℕ
  | 0, nextId => nextId
  | i + 1, nextId => skipPend pend i ((nextSet pend (nextId + 1)).getD (nextId + 1))

/-- Run the NACK-encoding loop from `nextId` to `endId` on an empty message and
collect the packed requests. -/
def nackEncodeFrom (pend : Finset ℕ) (nextId endId : ℕ) : List RepairRequest :=
  nackFinish (rrLoopF (endId + 1) pend endId nextId 0 0 ⟨[], .invalid, []⟩)

/-- The start index `AppendRepairRequest` walks from: first pending bit plus
`numParity` pending-bit skips when `erasure_count > numParity`, else the first
pending bit at or after `numData`. -/
def NormBlock.nackStart (b : NormBlock) (numData numParity : ℕ) : ℕ :=
  if numParity < b.erasure_count then
    skipPend b.pending_mask numParity ((nextSet b.pending_mask 0).getD 0)
  else (nextSet b.pending_mask numData).getD numData

/-- The end index of the walk: `numData + numParity` for explicit repair, else
`numData + erasure_count`. -/
def NormBlock.nackEnd (b : NormBlock) (numData numParity : ℕ) : ℕ :=
  if numParity < b.erasure_count then numData + numParity else numData + b.erasure_count

/-- `NormBlock::AppendRepairRequest` (`normSegment.cpp:469-628`, the live
code): choose the window by the erasure/parity policy, then walk the pending
bits emitting items/ranges per consecutive run.  Returns the packed requests
(message headers, flags and the ignored error checks are not modelled). -/
def NormBlock.AppendRepairRequest (b : NormBlock) (numData numParity : ℕ) :
    List RepairRequest :=
  nackEncodeFrom b.pending_mask (b.nackStart numData numParity) (b.nackEnd numData numParity)

/-- Spec-side (§4.2.7, claim wording): the pending ids of the window `[a, b)`
in ascending order. -/
def windowIds (pend : Finset ℕ) (a b : ℕ) : List ℕ :=
  (pend.filter (fun x => a ≤ x ∧ x < b)).sort (· ≤ ·)

/-- Spec-side: split an ascending id list into maximal consecutive runs. -/
def chunkRuns : List ℕ → List (List ℕ)
  | [] => []
  | x :: xs =>
    match chunkRuns xs with
    | [] => [[x]]
    | [] :: rest => [x] :: [] :: rest
    | (y :: ys) :: rest =>
      if x + 1 = y then (x :: y :: ys) :: rest else [x] :: (y :: ys) :: rest

/-- Spec-side: the form for a run, by its length (1 or 2 ITEMS, else RANGES). -/
def runRequestForm (r : List ℕ) : RepairForm :=
  if r.length ≤ 2 then .items else .ranges

/-- Spec-side: the entries for a run (each id an item, or one first-last range). -/
def runEntries (r : List ℕ) : List RepairEntry :=
  if r.length ≤ 2 then r.map (fun s => .item s) else [.range (r.headD 0) (r.getLastD 0)]

/-- Prepend a run's request to an assembled request list, merging it into the
head request when the forms agree (matching the encoder, which keeps appending
to the attached request until the form changes). -/
def mergeInto (f : RepairForm) (e : List RepairEntry) : List RepairRequest → List RepairRequest
  | [] => [⟨f, e⟩]
  | req :: reqs => if req.form = f then ⟨f, e ++ req.entries⟩ :: reqs else ⟨f, e⟩ :: req :: reqs

/-- Spec-side: assemble the run list into requests. -/
def specAssemble : List (List ℕ) → List RepairRequest
  | [] => []
  | r :: rs => mergeInto (runRequestForm r) (runEntries r) (specAssemble rs)

/-- Spec-side NACK content for an ascending id list. -/
def specNackEncode (ids : List ℕ) : List RepairRequest := specAssemble (chunkRuns ids)

theorem nextSet_some_spec (m : Finset ℕ) (i y : ℕ) (h : nextSet m i = some y) :
    y ∈ m ∧ i ≤ y ∧ ∀ z ∈ m, i ≤ z → y ≤ z := by
  unfold nextSet at h
  split at h
  · next hne =>
    obtain rfl := Option.some_injective _ h
    have hmem := Finset.min'_mem _ hne
    rw [Finset.mem_filter] at hmem
    refine ⟨hmem.1, hmem.2, ?_⟩
    intro z hz hiz
    exact Finset.min'_le _ z (Finset.mem_filter.mpr ⟨hz, hiz⟩)
  · exact Option.noConfusion h

theorem nextSet_none_spec (m : Finset ℕ) (i : ℕ) (h : nextSet m i = none) :
    ∀ z ∈ m, z < i := by
  unfold nextSet at h
  split at h
  · exact Option.noConfusion h
  · next hne =>
    rw [Finset.not_nonempty_iff_eq_empty] at hne
    intro z hz
    by_contra hlt
    push_neg at hlt
    have : z ∈ m.filter (fun j => i ≤ j) := Finset.mem_filter.mpr ⟨hz, hlt⟩
    rw [hne] at this
    exact absurd this (Finset.not_mem_empty z)

theorem windowIds_empty (pend : Finset ℕ) (a b : ℕ) (h : b ≤ a) :
    windowIds pend a b = [] := by
  unfold windowIds
  have : pend.filter (fun x => a ≤ x ∧ x < b) = ∅ := by
    rw [Finset.filter_eq_empty_iff]
    intro x _ hx
    omega
  rw [this]
  exact Finset.sort_empty _

theorem windowIds_congr (pend : Finset ℕ) (a c b : ℕ) (hac : a ≤ c)
    (hgap : ∀ z ∈ pend, a ≤ z → c ≤ z) :
    windowIds pend a b = windowIds pend c b := by
  unfold windowIds
  congr 1
  apply Finset.filter_congr
  intro x hx
  constructor
  · intro hp
    simp only [decide_eq_true_eq] at hp ⊢
    exact ⟨hgap x hx hp.1, hp.2⟩
  · intro hp
    simp only [decide_eq_true_eq] at hp ⊢
    exact ⟨le_trans hac hp.1, hp.2⟩

theorem windowIds_cons (pend : Finset ℕ) (a b : ℕ) (ha : a ∈ pend) (hab : a < b) :
    windowIds pend a b = a :: windowIds pend (a + 1) b := by
  unfold windowIds
  have hsplit : pend.filter (fun x => a ≤ x ∧ x < b) =
      insert a (pend.filter (fun x => a + 1 ≤ x ∧ x < b)) := by
    ext x
    simp only [Finset.mem_filter, Finset.mem_insert]
    constructor
    · intro ⟨hx, h1, h2⟩
      by_cases hxa : x = a
      · exact Or.inl hxa
      · exact Or.inr ⟨hx, by omega, h2⟩
    · intro h
      rcases h with rfl | ⟨hx, h1, h2⟩
      · exact ⟨ha, le_refl _, hab⟩
      · exact ⟨hx, by omega, h2⟩
  have hnot : a ∉ pend.filter (fun x => a + 1 ≤ x ∧ x < b) := by
    rw [Finset.mem_filter]
    intro ⟨_, h1, _⟩
    omega
  rw [hsplit]
  have hperm : List.Perm ((insert a (pend.filter (fun x => a + 1 ≤ x ∧ x < b))).sort (· ≤ ·))
      (a :: (pend.filter (fun x => a + 1 ≤ x ∧ x < b)).sort (· ≤ ·)) := by
    refine ((Finset.sort_perm_toList _ _).trans ?_).trans
      (List.Perm.cons a (Finset.sort_perm_toList _ _).symm)
    exact Finset.toList_insert hnot
  refine List.eq_of_perm_of_sorted hperm (Finset.sort_sorted _ _) ?_
  rw [List.sorted_cons]
  refine ⟨?_, Finset.sort_sorted _ _⟩
  intro x hx
  rw [Finset.mem_sort] at hx
  rw [Finset.mem_filter] at hx
  omega

theorem windowIds_nil_of_forall (pend : Finset ℕ) (a b : ℕ)
    (h : ∀ z ∈ pend, a ≤ z → b ≤ z) :
    windowIds pend a b = [] := by
  unfold windowIds
  have he : pend.filter (fun x => a ≤ x ∧ x < b) = ∅ := by
    rw [Finset.filter_eq_empty_iff]
    intro x hx ⟨h1, h2⟩
    have := h x hx h1
    omega
  rw [he]
  exact Finset.sort_empty _

/-- The NACK loop re-expressed over the explicit ascending list of walked ids. -/
def rrListLoop : List ℕ → ℕ → ℕ → NackState → NackState
  | [], _, _, st => st
  | x :: xs, segmentCount, firstId, st =>
    let firstId2 := if segmentCount = 0 then x else firstId
    match xs with
    | [] => closeRun st (segmentCount + 1) firstId2 x
    | y :: ys =>
      if 1 < y - x then
        rrListLoop (y :: ys) 0 firstId2 (closeRun st (segmentCount + 1) firstId2 x)
      else rrListLoop (y :: ys) (segmentCount + 1) firstId2 st

theorem rrLoopF_eq_listLoop (pend : Finset ℕ) (endId : ℕ) :
    ∀ fuel nextId segmentCount firstId st, endId ≤ nextId + fuel →
      (nextId ∈ pend ∨ endId ≤ nextId) →
      rrLoopF fuel pend endId nextId segmentCount firstId st =
        rrListLoop (windowIds pend nextId endId) segmentCount firstId st := by
  intro fuel
  induction fuel with
  | zero =>
    intro nextId sc fid st hfuel hstart
    rw [windowIds_empty pend nextId endId (by omega)]
    rfl
  | succ n ih =>
    intro nextId sc fid st hfuel hstart
    by_cases hlt : nextId < endId
    · have hmem : nextId ∈ pend := by
        rcases hstart with h | h
        · exact h
        · omega
      rw [windowIds_cons pend nextId endId hmem hlt]
      rcases hns : nextSet pend (nextId + 1) with _ | y
      · have hno := nextSet_none_spec _ _ hns
        have hwin : windowIds pend (nextId + 1) endId = [] :=
          windowIds_nil_of_forall pend (nextId + 1) endId
            (fun z hz h1 => absurd (hno z hz) (by omega))
        rw [hwin]
        simp only [rrLoopF, hns]
        rw [if_pos hlt, if_pos (Or.inr (le_refl endId))]
        rw [ih endId 0 (if sc = 0 then nextId else fid) _ (by omega) (Or.inr (le_refl endId))]
        rw [windowIds_empty pend endId endId (le_refl endId)]
        rfl
      · obtain ⟨hymem, hyge, hymin⟩ := nextSet_some_spec _ _ _ hns
        by_cases hyb : y < endId
        · have hwin : windowIds pend (nextId + 1) endId = y :: windowIds pend (y + 1) endId := by
            rw [windowIds_congr pend (nextId + 1) y endId hyge (fun z hz h1 => hymin z hz h1)]
            exact windowIds_cons pend y endId hymem hyb
          rw [hwin]
          simp only [rrLoopF, hns]
          rw [if_pos hlt]
          by_cases hgap : 1 < y - nextId
          · rw [if_pos (Or.inl hgap)]
            rw [ih y 0 (if sc = 0 then nextId else fid) _ (by omega) (Or.inl hymem)]
            rw [windowIds_congr pend y y endId (le_refl y) (fun z _ h1 => h1),
              windowIds_cons pend y endId hymem hyb] at *
            simp only [rrListLoop]
            rw [if_pos hgap]
          · rw [if_neg (by push_neg; exact ⟨by omega, by omega⟩)]
            rw [ih y (sc + 1) (if sc = 0 then nextId else fid) st (by omega) (Or.inl hymem)]
            rw [windowIds_cons pend y endId hymem hyb]
            simp only [rrListLoop]
            rw [if_neg hgap]
        · have hwin : windowIds pend (nextId + 1) endId = [] :=
            windowIds_nil_of_forall pend (nextId + 1) endId
              (fun z hz h1 => le_trans (by omega) (hymin z hz h1))
          rw [hwin]
          simp only [rrLoopF, hns]
          rw [if_pos hlt, if_pos (Or.inr (by omega))]
          rw [ih y 0 (if sc = 0 then nextId else fid) _ (by omega) (Or.inr (by omega))]
          rw [windowIds_empty pend y endId (by omega)]
          rfl
    · rw [windowIds_empty pend nextId endId (by omega)]
      simp only [rrLoopF]
      rw [if_neg hlt]
      rfl

theorem rrListLoop_run : ∀ (m a segmentCount firstId : ℕ) (rest : List ℕ) (st : NackState),
    (∀ z, rest.head? = some z → a + m + 1 < z) →
    rrListLoop (List.range' a (m + 1) ++ rest) segmentCount firstId st =
      rrListLoop rest 0 (if segmentCount = 0 then a else firstId)
        (closeRun st (segmentCount + m + 1) (if segmentCount = 0 then a else firstId) (a + m)) := by
  intro m
  induction m with
  | zero =>
    intro a sc fid rest st hrest
    have h1 : List.range' a 1 ++ rest = a :: rest := rfl
    rw [h1]
    cases rest with
    | nil =>
      simp only [rrListLoop]
      rfl
    | cons z zs =>
      have hz : a + 0 + 1 < z := hrest z rfl
      simp only [rrListLoop]
      rw [if_pos (show 1 < z - a by omega)]
      rfl
  | succ m ih =>
    intro a sc fid rest st hrest
    have h2 : List.range' (a + 1) (m + 1) ++ rest = (a + 1) :: (List.range' (a + 2) m ++ rest) := by
      rw [List.range'_succ]
      rfl
    have h1 : List.range' a (m + 2) ++ rest = a :: ((a + 1) :: (List.range' (a + 2) m ++ rest)) := by
      rw [List.range'_succ]
      show a :: (List.range' (a + 1) (m + 1) ++ rest) = _
      rw [h2]
    rw [h1]
    simp only [rrListLoop]
    rw [if_neg (show ¬ 1 < a + 1 - a by omega)]
    rw [← h2]
    rw [ih (a + 1) (sc + 1) (if sc = 0 then a else fid) rest st
      (fun z hz => by have := hrest z hz; omega)]
    rw [if_neg (Nat.succ_ne_zero sc)]
    have e1 : sc + 1 + m + 1 = sc + (m + 1) + 1 := by omega
    have e2 : a + 1 + m = a + (m + 1) := by omega
    rw [e1, e2]

theorem chunkRuns_cons_head (x : ℕ) (xs : List ℕ) :
    ∃ t rs, chunkRuns (x :: xs) = (x :: t) :: rs := by
  rcases hc : chunkRuns xs with _ | ⟨r, rest⟩
  · exact ⟨[], [], by simp [chunkRuns, hc]⟩
  · rcases r with _ | ⟨y, ys⟩
    · exact ⟨[], [] :: rest, by simp [chunkRuns, hc]⟩
    · by_cases hxy : x + 1 = y
      · exact ⟨y :: ys, rest, by simp [chunkRuns, hc, hxy]⟩
      · exact ⟨[], (y :: ys) :: rest, by simp [chunkRuns, hc, hxy]⟩

theorem chunkRuns_run : ∀ (m a : ℕ) (rest : List ℕ),
    (∀ z, rest.head? = some z → a + m + 1 < z) →
    chunkRuns (List.range' a (m + 1) ++ rest) = List.range' a (m + 1) :: chunkRuns rest := by
  intro m
  induction m with
  | zero =>
    intro a rest hrest
    cases rest with
    | nil => rfl
    | cons z zs =>
      have hz : a + 0 + 1 < z := hrest z rfl
      obtain ⟨t, rs, hc⟩ := chunkRuns_cons_head z zs
      show chunkRuns (a :: z :: zs) = [a] :: chunkRuns (z :: zs)
      have hstep : chunkRuns (a :: z :: zs) =
          match chunkRuns (z :: zs) with
          | [] => [[a]]
          | [] :: rest2 => [a] :: [] :: rest2
          | (y :: ys) :: rest2 =>
            if a + 1 = y then (a :: y :: ys) :: rest2 else [a] :: (y :: ys) :: rest2 := rfl
      rw [hstep, hc]
      show (if a + 1 = z then (a :: z :: t) :: rs else [a] :: (z :: t) :: rs) = [a] :: (z :: t) :: rs
      rw [if_neg (show ¬ a + 1 = z by omega)]
  | succ m ih =>
    intro a rest hrest
    have h2 : List.range' (a + 1) (m + 1) ++ rest = (a + 1) :: (List.range' (a + 2) m ++ rest) := by
      rw [List.range'_succ]
      rfl
    have h1 : List.range' a (m + 2) ++ rest = a :: (List.range' (a + 1) (m + 1) ++ rest) := by
      rw [List.range'_succ]
      rfl
    rw [h1]
    have hih := ih (a + 1) rest (fun z hz => by have := hrest z hz; omega)
    have hih2 : chunkRuns (List.range' (a + 1) (m + 1) ++ rest) =
        ((a + 1) :: List.range' (a + 2) m) :: chunkRuns rest := by
      rw [hih, List.range'_succ]
    have hstep : chunkRuns (a :: (List.range' (a + 1) (m + 1) ++ rest)) =
        match chunkRuns (List.range' (a + 1) (m + 1) ++ rest) with
        | [] => [[a]]
        | [] :: rest2 => [a] :: [] :: rest2
        | (y :: ys) :: rest2 =>
          if a + 1 = y then (a :: y :: ys) :: rest2 else [a] :: (y :: ys) :: rest2 := rfl
    rw [hstep, hih2]
    show (if a + 1 = a + 1 then (a :: (a + 1) :: List.range' (a + 2) m) :: chunkRuns rest
      else [a] :: ((a + 1) :: List.range' (a + 2) m) :: chunkRuns rest) = _
    rw [if_pos rfl]
    rfl

theorem sorted_first_run : ∀ (xs : List ℕ) (x : ℕ), (x :: xs).Sorted (· < ·) →
    ∃ m rest, x :: xs = List.range' x (m + 1) ++ rest ∧
      (∀ z, rest.head? = some z → x + m + 1 < z) ∧
      rest.Sorted (· < ·) ∧ rest.length + m = xs.length := by
  intro xs
  induction xs with
  | nil =>
    intro x _
    refine ⟨0, [], rfl, ?_, List.sorted_nil, rfl⟩
    intro z hz
    exact Option.noConfusion hz
  | cons y ys ihy =>
    intro x hs
    rw [List.sorted_cons] at hs
    by_cases hxy : y = x + 1
    · obtain ⟨m, rest, heq, hhead, hsort, hlen⟩ := ihy y hs.2
      refine ⟨m + 1, rest, ?_, ?_, hsort, ?_⟩
      · rw [List.range'_succ]
        show x :: (y :: ys) = x :: (List.range' (x + 1) (m + 1) ++ rest)
        rw [← hxy, heq]
      · intro z hz
        have := hhead z hz
        omega
      · simp only [List.length_cons]
        omega
    · have hxy2 : x + 1 < y := by
        have := hs.1 y (List.mem_cons_self y ys)
        omega
      refine ⟨0, y :: ys, rfl, ?_, hs.2, rfl⟩
      intro z hz
      have : z = y := by
        simp only [List.head?_cons] at hz
        exact (Option.some_injective _ hz).symm
      omega

/-- Process an explicit run list: close each run in turn. -/
def runsLoop : List (List ℕ) → NackState → NackState
  | [], st => st
  | r :: rs, st => runsLoop rs (closeRun st r.length (r.headD 0) (r.getLastD 0))

theorem getLastD_range' : ∀ (m a : ℕ), (List.range' a (m + 1)).getLastD 0 = a + m := by
  intro m
  induction m with
  | zero => intro a; rfl
  | succ m ih =>
    intro a
    rw [List.range'_succ]
    have h2 : List.range' (a + 1) (m + 1) = (a + 1) :: List.range' (a + 2) m := by
      rw [List.range'_succ]
    rw [h2]
    have := ih (a + 1)
    rw [h2] at this
    show ((a + 1) :: List.range' (a + 2) m).getLastD 0 = a + (m + 1)
    rw [this]
    omega

theorem listLoop_eq_runsLoop_aux (n : ℕ) : ∀ L : List ℕ, L.length ≤ n →
    L.Sorted (· < ·) → ∀ fid st,
    rrListLoop L 0 fid st = runsLoop (chunkRuns L) st := by
  induction n with
  | zero =>
    intro L hlen _ fid st
    cases L with
    | nil => rfl
    | cons x xs => exact absurd hlen (by simp)
  | succ n ih =>
    intro L hlen hsort fid st
    cases L with
    | nil => rfl
    | cons x xs =>
      obtain ⟨m, rest, heq, hhead, hrsort, hrlen⟩ := sorted_first_run xs x hsort
      rw [heq, rrListLoop_run m x 0 fid rest st hhead, chunkRuns_run m x rest hhead]
      simp only [runsLoop, List.length_range', getLastD_range']
      have hh : (List.range' x (m + 1)).headD 0 = x := by
        rw [List.range'_succ]
        rfl
      rw [hh]
      simp only [if_true]
      have e1 : (0 : ℕ) + m + 1 = m + 1 := by omega
      rw [e1]
      refine ih rest ?_ hrsort x _
      simp only [List.length_cons] at hlen
      omega

theorem listLoop_eq_runsLoop (L : List ℕ) (hsort : L.Sorted (· < ·)) (fid : ℕ) (st : NackState) :
    rrListLoop L 0 fid st = runsLoop (chunkRuns L) st :=
  listLoop_eq_runsLoop_aux L.length L (le_refl _) hsort fid st

theorem headD_range' (a m : ℕ) : (List.range' a (m + 1)).headD 0 = a := by
  rw [List.range'_succ]
  rfl

theorem runRequestForm_ne_invalid (r : List ℕ) : runRequestForm r ≠ .invalid := by
  unfold runRequestForm
  split <;> intro h <;> exact RepairForm.noConfusion h

theorem closeRun_eval (out : List RepairRequest) (pf : RepairForm) (cur : List RepairEntry)
    (a m : ℕ) :
    closeRun ⟨out, pf, cur⟩ (m + 1) a (a + m) =
      if runRequestForm (List.range' a (m + 1)) = pf then
        ⟨out, pf, cur ++ runEntries (List.range' a (m + 1))⟩
      else
        ⟨if pf = .invalid then out else out ++ [⟨pf, cur⟩],
          runRequestForm (List.range' a (m + 1)), runEntries (List.range' a (m + 1))⟩ := by
  rcases m with _ | mm
  · have hf : runRequestForm (List.range' a 1) = .items := rfl
    have he : runEntries (List.range' a 1) = [.item a] := rfl
    rw [hf, he]
    by_cases hpf : RepairForm.items = pf
    · subst hpf
      simp [closeRun]
    · simp [closeRun, hpf, ite_not]
  · rcases mm with _ | m
    · have hf : runRequestForm (List.range' a 2) = .items := rfl
      have he : runEntries (List.range' a 2) = [.item a, .item (a + 1)] := rfl
      rw [hf, he]
      by_cases hpf : RepairForm.items = pf
      · subst hpf
        simp [closeRun]
      · simp [closeRun, hpf, ite_not]
    · have hlen : (List.range' a (m + 2 + 1)).length = m + 2 + 1 := List.length_range' _ _ _
      have hf : runRequestForm (List.range' a (m + 2 + 1)) = .ranges := by
        unfold runRequestForm
        rw [hlen, if_neg (by omega)]
      have he : runEntries (List.range' a (m + 2 + 1)) = [.range a (a + (m + 2))] := by
        unfold runEntries
        rw [hlen, if_neg (by omega), headD_range', getLastD_range']
      rw [hf, he]
      by_cases hpf : RepairForm.ranges = pf
      · subst hpf
        simp [closeRun]
      · simp [closeRun, hpf, ite_not]

theorem mergeInto_head_form (f : RepairForm) (e : List RepairEntry)
    (reqs : List RepairRequest) :
    ∃ e2 tail, mergeInto f e reqs = ⟨f, e2⟩ :: tail := by
  cases reqs with
  | nil => exact ⟨e, [], rfl⟩
  | cons req rs =>
    by_cases h : req.form = f
    · exact ⟨e ++ req.entries, rs, by simp [mergeInto, h]⟩
    · exact ⟨e, req :: rs, by simp [mergeInto, h]⟩

theorem mergeInto_merge (f : RepairForm) (cur e : List RepairEntry)
    (reqs : List RepairRequest) :
    mergeInto f cur (mergeInto f e reqs) = mergeInto f (cur ++ e) reqs := by
  cases reqs with
  | nil => simp [mergeInto]
  | cons req rs =>
    by_cases h : req.form = f
    · simp [mergeInto, h, List.append_assoc]
    · simp [mergeInto, h]

theorem runsLoop_finish : ∀ (runs : List (List ℕ)),
    (∀ r ∈ runs, ∃ a m, r = List.range' a (m + 1)) →
    ∀ (out : List RepairRequest) (pf : RepairForm) (cur : List RepairEntry),
    nackFinish (runsLoop runs ⟨out, pf, cur⟩) =
      if pf = .invalid then out ++ specAssemble runs
      else out ++ mergeInto pf cur (specAssemble runs) := by
  intro runs
  induction runs with
  | nil =>
    intro _ out pf cur
    by_cases hpf : pf = .invalid
    · rw [if_pos hpf]
      simp [runsLoop, nackFinish, hpf, specAssemble]
    · rw [if_neg hpf]
      simp [runsLoop, nackFinish, hpf, specAssemble, mergeInto]
  | cons r rs ihr =>
    intro hvalid out pf cur
    obtain ⟨a, m, hr⟩ := hvalid r (List.mem_cons_self r rs)
    have hstep : runsLoop (r :: rs) ⟨out, pf, cur⟩ =
        runsLoop rs (closeRun ⟨out, pf, cur⟩ r.length (r.headD 0) (r.getLastD 0)) := rfl
    rw [hstep]
    have hl : r.length = m + 1 := by rw [hr]; exact List.length_range' _ _ _
    have hh : r.headD 0 = a := by rw [hr]; exact headD_range' a m
    have hg : r.getLastD 0 = a + m := by rw [hr]; exact getLastD_range' m a
    rw [hl, hh, hg, closeRun_eval]
    have hrs : ∀ q ∈ rs, ∃ a m, q = List.range' a (m + 1) :=
      fun q hq => hvalid q (List.mem_cons_of_mem r hq)
    have hspec : specAssemble (r :: rs) =
        mergeInto (runRequestForm r) (runEntries r) (specAssemble rs) := rfl
    by_cases hf : runRequestForm (List.range' a (m + 1)) = pf
    · rw [if_pos hf]
      rw [ihr hrs out pf (cur ++ runEntries (List.range' a (m + 1)))]
      have hpfne : pf ≠ .invalid := by
        rw [← hf]
        exact runRequestForm_ne_invalid _
      rw [if_neg hpfne, if_neg hpfne, hspec, hr, hf]
      rw [mergeInto_merge]
    · rw [if_neg hf]
      by_cases hpf : pf = .invalid
      · rw [if_pos hpf, if_pos hpf]
        rw [ihr hrs out (runRequestForm (List.range' a (m + 1)))
          (runEntries (List.range' a (m + 1)))]
        rw [if_neg (runRequestForm_ne_invalid _), hspec, hr]
      · rw [if_neg hpf, if_neg hpf]
        rw [ihr hrs (out ++ [RepairRequest.mk pf cur]) (runRequestForm (List.range' a (m + 1)))
          (runEntries (List.range' a (m + 1)))]
        rw [if_neg (runRequestForm_ne_invalid _), hspec, hr]
        obtain ⟨e2, tail, hm⟩ := mergeInto_head_form (runRequestForm (List.range' a (m + 1)))
          (runEntries (List.range' a (m + 1))) (specAssemble rs)
        rw [hm]
        have hform2 : (⟨runRequestForm (List.range' a (m + 1)), e2⟩ : RepairRequest).form ≠ pf := hf
        simp only [mergeInto]
        rw [if_neg hform2]
        simp

theorem chunkRuns_valid_aux (n : ℕ) : ∀ L : List ℕ, L.length ≤ n → L.Sorted (· < ·) →
    ∀ r ∈ chunkRuns L, ∃ a m, r = List.range' a (m + 1) := by
  induction n with
  | zero =>
    intro L hlen _ r hr
    cases L with
    | nil => exact absurd hr (by simp [chunkRuns])
    | cons x xs => exact absurd hlen (by simp)
  | succ n ih =>
    intro L hlen hsort r hr
    cases L with
    | nil => exact absurd hr (by simp [chunkRuns])
    | cons x xs =>
      obtain ⟨m, rest, heq, hhead, hrsort, hrlen⟩ := sorted_first_run xs x hsort
      rw [heq, chunkRuns_run m x rest hhead] at hr
      rcases List.mem_cons.mp hr with rfl | hr2
      · exact ⟨x, m, rfl⟩
      · refine ih rest ?_ hrsort r hr2
        simp only [List.length_cons] at hlen
        omega

theorem windowIds_sorted (pend : Finset ℕ) (a b : ℕ) :
    (windowIds pend a b).Sorted (· < ·) :=
  Finset.sort_sorted_lt _

theorem nackEncodeFrom_spec (pend : Finset ℕ) (start endId : ℕ)
    (hstart : start ∈ pend ∨ endId ≤ start) :
    nackEncodeFrom pend start endId = specNackEncode (windowIds pend start endId) := by
  unfold nackEncodeFrom specNackEncode
  rw [rrLoopF_eq_listLoop pend endId (endId + 1) start 0 0 _ (by omega) hstart]
  rw [listLoop_eq_runsLoop _ (windowIds_sorted pend start endId) 0 _]
  rw [runsLoop_finish _ (chunkRuns_valid_aux (windowIds pend start endId).length _
    (le_refl _) (windowIds_sorted pend start endId)) [] .invalid []]
  rw [if_pos rfl]
  rfl

/-- The receiver block of the C6 scenario: `numData = 16`, pending bits
`{3, 7, 8, 9, 10, 15}`, `erasure_count = 6`, `numParity = 0`. -/
def blkC6 : NormBlock := ⟨64, ({3, 7, 8, 9, 10, 15} : Finset ℕ), ∅, 6, 0, 0, false⟩

/-- C6: the symbol ids `AppendRepairRequest` encodes are exactly the pending
bits of the policy-chosen window `[nackStart, nackEnd)`, walked in ascending
order and compressed into maximal consecutive runs, a run of length 1 or 2 in
ITEMS form and of length at least 3 in RANGES form (adjacent same-form runs
share one packed request); the walk hypothesis says the start index the
prelude computed is a pending bit or already past the window, which the
bitmask walk guarantees whenever any pending bit exists there.  In particular
the scenario block `blkC6` emits `ITEMS{3}`, `RANGES{7..10}`, `ITEMS{15}`. -/
theorem c6_appendRepairRequest_encoding :
    (∀ (b : NormBlock) (numData numParity : ℕ),
        (b.nackStart numData numParity ∈ b.pending_mask ∨
          b.nackEnd numData numParity ≤ b.nackStart numData numParity) →
        b.AppendRepairRequest numData numParity =
          specNackEncode (windowIds b.pending_mask (b.nackStart numData numParity)
            (b.nackEnd numData numParity))) ∧
    (blkC6.nackStart 16 0 = 3 ∧ blkC6.nackEnd 16 0 = 16 ∧
      blkC6.AppendRepairRequest 16 0 =
        [⟨.items, [.item 3]⟩, ⟨.ranges, [.range 7 10]⟩, ⟨.items, [.item 15]⟩] ∧
      specNackEncode (windowIds blkC6.pending_mask 3 16) =
        [⟨.items, [.item 3]⟩, ⟨.ranges, [.range 7 10]⟩, ⟨.items, [.item 15]⟩]) := by
  constructor
  · intro b numData numParity h
    exact nackEncodeFrom_spec _ _ _ h
  · refine ⟨by decide, by decide, by decide, ?_⟩
    have hw : windowIds blkC6.pending_mask 3 16 = [3, 7, 8, 9, 10, 15] := by
      rw [windowIds_cons _ _ _ (by decide) (by decide),
        windowIds_congr blkC6.pending_mask 4 7 16 (by omega) (by decide),
        windowIds_cons _ _ _ (by decide) (by decide),
        windowIds_cons _ _ _ (by decide) (by decide),
        windowIds_cons _ _ _ (by decide) (by decide),
        windowIds_cons _ _ _ (by decide) (by decide),
        windowIds_congr blkC6.pending_mask 11 15 16 (by omega) (by decide),
        windowIds_cons _ _ _ (by decide) (by decide),
        windowIds_empty blkC6.pending_mask 16 16 (le_refl 16)]
    rw [hw]
    decide

theorem c6_appendRepairRequest_encoding_witness :
    blkC6.AppendRepairRequest 16 0 =
      specNackEncode (windowIds blkC6.pending_mask (blkC6.nackStart 16 0)
        (blkC6.nackEnd 16 0)) :=
  c6_appendRepairRequest_encoding.1 blkC6 16 0 (Or.inl (by decide))
